import Mathlib

/-!
Verification of the structural source-code analyzer of this repository
(src/docs/extract_app_docs.py, src/docs/extract_api.py, src/docs/analyze_code.py)
against its natural-language specification.

The Python sources are shallowly embedded:
 * Python strings are Lean String / List Char; Python regular expressions are
   transcribed into an explicit AST (Rex.Re) executed by a backtracking matcher
   that mirrors the semantics of the re module (leftmost match, alternatives
   tried left to right, greedy and lazy repetition, MULTILINE anchors,
   group capture, finditer non-overlap, sub, match, findall).
 * Python dicts are insertion-ordered association lists.
 * Python exceptions (KeyError, IndexError) are modelled with Option: a crash
   of the whole run is None.
 * The iteration order of a Python set (list(set(...)) in analyze_code.py,
   which depends on the per-process string hash seed) is modelled by an
   explicit enumeration parameter, constrained to produce a permutation.
-/

set_option maxRecDepth 20000

namespace PyStr

/-- Python str.isspace relevant characters (ASCII range, as in these inputs). -/
def isSpaceC (c : Char) : Bool :=
  c = ' ' || c = '\t' || c = '\n' || c = '\r' || c = '\x0b' || c = '\x0c'

/-- Python regex word character, ASCII: [a-zA-Z0-9_]. -/
def isWordC (c : Char) : Bool :=
  ('a' ≤ c && c ≤ 'z') || ('A' ≤ c && c ≤ 'Z') || ('0' ≤ c && c ≤ '9') || c = '_'

/-- Python str.strip on a character list. -/
def stripL (l : List Char) : List Char :=
  ((l.dropWhile isSpaceC).reverse.dropWhile isSpaceC).reverse

/-- Python str.strip. -/
def pystrip (s : String) : String := String.mk (stripL s.data)

/-- Python startswith. -/
def strStartsWith (s t : String) : Bool := t.data.isPrefixOf s.data

/-- Python endswith. -/
def strEndsWith (s t : String) : Bool := t.data.isSuffixOf s.data

/-- Python str.split(sep) for a one-character separator: keeps empty fields. -/
def splitChar (sep : Char) : List Char → List (List Char)
  | [] => [[]]
  | c :: rest =>
    match splitChar sep rest with
    | [] => [[]]
    | h :: t => if c = sep then [] :: h :: t else (c :: h) :: t

/-- Python content.split(sep-char) on strings. -/
def pysplit (sep : Char) (s : String) : List String :=
  (splitChar sep s.data).map String.mk

/-- Python str.split() with no argument: whitespace runs, empties dropped. -/
def splitWsAux : List Char → List Char → List (List Char)
  | [], acc => if acc.isEmpty then [] else [acc.reverse]
  | c :: rest, acc =>
    if isSpaceC c then
      (if acc.isEmpty then splitWsAux rest [] else acc.reverse :: splitWsAux rest [])
    else splitWsAux rest (c :: acc)

def pysplitWs (s : String) : List String := (splitWsAux s.data []).map String.mk

/-- Python str.rsplit(' ', 1): split at the last literal space, if any. -/
def rsplitSp (s : String) : Option (String × String) :=
  let r := s.data.reverse
  let pre := r.takeWhile (fun c => ¬ c = ' ')
  if pre.length = r.length then none
  else some (String.mk ((r.drop (pre.length + 1)).reverse), String.mk pre.reverse)

/-- Substring containment on character lists (Python operator in). -/
def containsSubL : List Char → List Char → Bool
  | [], n => n.isEmpty
  | h :: rest, n => n.isPrefixOf (h :: rest) || containsSubL rest n

/-- Python sub in s. -/
def strContains (s sub : String) : Bool := containsSubL s.data sub.data

/-- Python str.lower (ASCII). -/
def pylower (s : String) : String := String.mk (s.data.map Char.toLower)

/-- Python sep.join(parts). -/
def pyJoin (sep : String) : List String → String
  | [] => ""
  | [x] => x
  | x :: y :: rest => x ++ sep ++ pyJoin sep (y :: rest)

/-- Python s[:n]. -/
def strTake (s : String) (n : Nat) : String := String.mk (s.data.take n)

/-- Python len(s). -/
def strLen (s : String) : Nat := s.data.length

/-- Python content.count(newline, 0, position) + 1: 1-based line number. -/
def lineNumber (content : String) (pos : Nat) : Nat :=
  ((content.data.take pos).filter (fun c => c = '\n')).length + 1

/-- Python l[-n:]. -/
def lastN {α : Type} (n : Nat) (l : List α) : List α := l.drop (l.length - n)

end PyStr

namespace Rex

/-- One alternative inside a character class. -/
inductive CAtom
  | word
  | space
  | lit (c : Char)
  | range (lo hi : Char)
  deriving DecidableEq

/-- A character class: a set of atoms, possibly negated. -/
structure CC where
  neg : Bool
  atoms : List CAtom
  deriving DecidableEq

def CAtom.mat : CAtom → Char → Bool
  | .word, c => PyStr.isWordC c
  | .space, c => PyStr.isSpaceC c
  | .lit a, c => c = a
  | .range lo hi, c => lo ≤ c && c ≤ hi

def CC.mat (cc : CC) (c : Char) : Bool :=
  (cc.atoms.any (fun a => a.mat c)) != cc.neg

/-- Regular expression AST (the fragment used by the Python sources). -/
inductive Re
  | eps
  | cls (c : CC)
  | str (s : List Char)
  | seq (a b : Re)
  | alt (a b : Re)
  | star (lazy : Bool) (r : Re)
  | group (n : Nat) (r : Re)
  | bol (multi : Bool)
  | wb
  deriving DecidableEq

/-- Captured groups: latest capture for a group number is listed first. -/
abbrev Caps := List (Nat × List Char)

def capGet (caps : Caps) (n : Nat) : Option (List Char) :=
  (caps.find? (fun p => p.1 = n)).map (fun p => p.2)

/-- Backtracking matcher in continuation-passing style, mirroring the re
module: alternatives left to right, greedy repetition prefers longer,
lazy repetition prefers shorter, anchors consult the previous character.
fuel bounds recursion depth only; it is chosen large enough at every use. -/
def mre (fuel : Nat) (re : Re) (prev : Option Char) (inp : List Char) (caps : Caps)
    (k : Option Char → List Char → Caps → Option (List Char × Caps)) :
    Option (List Char × Caps) :=
  match fuel with
  | 0 => none
  | fuel + 1 =>
    match re with
    | .eps => k prev inp caps
    | .cls cc =>
      match inp with
      | [] => none
      | c :: rest => if cc.mat c then k (some c) rest caps else none
    | .str s =>
      if s.isPrefixOf inp then
        k (match s.getLast? with | none => prev | some c => some c) (inp.drop s.length) caps
      else none
    | .seq a b => mre fuel a prev inp caps (fun p i cp => mre fuel b p i cp k)
    | .alt a b =>
      match mre fuel a prev inp caps k with
      | some r => some r
      | none => mre fuel b prev inp caps k
    | .star lz r =>
      let iter := mre fuel r prev inp caps (fun p i cp =>
        if i.length < inp.length then mre fuel (.star lz r) p i cp k else k p i cp)
      if lz then
        match k prev inp caps with
        | some r0 => some r0
        | none => iter
      else
        match iter with
        | some r0 => some r0
        | none => k prev inp caps
    | .group n r =>
      mre fuel r prev inp caps (fun p i cp =>
        k p i ((n, inp.take (inp.length - i.length)) :: cp))
    | .bol multi =>
      match prev with
      | none => k prev inp caps
      | some c => if multi && c = '\n' then k prev inp caps else none
    | .wb =>
      let a := match prev with | none => false | some c => PyStr.isWordC c
      let b := match inp with | [] => false | c :: _ => PyStr.isWordC c
      if a != b then k prev inp caps else none

/-- A match result: start, end (absolute offsets) and captures. -/
structure M where
  s : Nat
  e : Nat
  caps : Caps
  deriving DecidableEq

/-- Try to match at successive positions (Python re.search semantics). -/
def searchAux (fuel : Nat) (re : Re) (prev : Option Char) (inp : List Char)
    (pos : Nat) : Option M :=
  match mre fuel re prev inp [] (fun _ i cp => some (i, cp)) with
  | some (rest, caps) => some ⟨pos, pos + (inp.length - rest.length), caps⟩
  | none =>
    match inp with
    | [] => none
    | c :: rest => searchAux fuel re (some c) rest (pos + 1)

def defFuel (l : List Char) : Nat := 40 * l.length + 400

/-- Python re.search over a character list. -/
def reSearch (re : Re) (content : List Char) : Option M :=
  searchAux (defFuel content) re none content 0

/-- Python re.match: anchored at offset 0, no scanning. -/
def reMatchL (re : Re) (content : List Char) : Option M :=
  match mre (defFuel content) re none content [] (fun _ i cp => some (i, cp)) with
  | some (rest, caps) => some ⟨0, content.length - rest.length, caps⟩
  | none => none

/-- Python re.finditer: non-overlapping matches, scanning left to right;
after an empty match the scan position advances by one character. -/
def findItAux (fuel : Nat) (re : Re) (content : List Char) (prev : Option Char)
    (inp : List Char) (pos : Nat) (gas : Nat) : List M :=
  match gas with
  | 0 => []
  | gas + 1 =>
    match searchAux fuel re prev inp pos with
    | none => []
    | some m =>
      let adv := if m.e > m.s then m.e - pos else m.e + 1 - pos
      let inp2 := inp.drop adv
      let prev2 := (inp.take adv).getLast?
      let prev2 := match prev2 with | none => prev | some c => some c
      m :: findItAux fuel re content prev2 inp2 (pos + adv) gas

def reFindIter (re : Re) (content : List Char) : List M :=
  findItAux (defFuel content) re content none content 0 (content.length + 2)

/-- Python re.findall for a single-group pattern: list of group-1 captures. -/
def reFindAll1 (re : Re) (content : List Char) : List (List Char) :=
  (reFindIter re content).filterMap (fun m => capGet m.caps 1)

/-- Python re.sub with a constant replacement string. -/
def reSub (re : Re) (repl : List Char) (content : List Char) : List Char :=
  let ms := reFindIter re content
  let rec go (cur : Nat) (ms : List M) : List Char :=
    match ms with
    | [] => content.drop cur
    | m :: rest =>
      (content.take m.s).drop cur ++ repl ++ go m.e rest
  go 0 ms

/-- Group accessor on a match, as a String; None when the group never matched. -/
def groupS (m : M) (n : Nat) : Option String :=
  (capGet m.caps n).map String.mk

end Rex

namespace Pat
open Rex

def ccW : CC := ⟨false, [.word]⟩
def ccS : CC := ⟨false, [.space]⟩
def ccDot : CC := ⟨true, [.lit '\n']⟩
def ccDotAll : CC := ⟨true, []⟩
def ccWdot : CC := ⟨false, [.word, .lit '.']⟩
def ccUpper : CC := ⟨false, [.range 'A' 'Z']⟩

def rStr (s : String) : Re := .str s.data
def rOpt (r : Re) : Re := .alt r .eps
def rStarG (c : CC) : Re := .star false (.cls c)
def rPlusG (c : CC) : Re := .seq (.cls c) (.star false (.cls c))
def rSeq : List Re → Re
  | [] => .eps
  | [r] => r
  | r :: s :: rest => .seq r (rSeq (s :: rest))

/-- (public|protected|private) -/
def reVis : Re := .alt (rStr "public") (.alt (rStr "protected") (rStr "private"))

/-- (public|protected|private|) with an empty last alternative (analyze_code). -/
def reVisE : Re := .alt (rStr "public") (.alt (rStr "protected") (.alt (rStr "private") .eps))

/-- package\s+([\w.]+); -/
def packageRe : Re :=
  rSeq [rStr "package", rPlusG ccS, .group 1 (rPlusG ccWdot), rStr ";"]

/-- import\s+([\w.]+); -/
def importRe : Re :=
  rSeq [rStr "import", rPlusG ccS, .group 1 (rPlusG ccWdot), rStr ";"]

/-- [<>\w\[\],\s?]+ : the return-type class of the shared method pattern. -/
def ccRT : CC :=
  ⟨false, [.lit '<', .lit '>', .word, .lit '[', .lit ']', .lit ',', .space, .lit '?']⟩

/-- [\w\s,.<>]+ : throws-clause class of the shared method pattern. -/
def ccThrows : CC :=
  ⟨false, [.word, .space, .lit ',', .lit '.', .lit '<', .lit '>']⟩

/-- The shared method pattern of extract_api.py and extract_app_docs.py:
^\s*(public|protected|private)?\s*(static\s+)?(final\s+)?(synchronized\s+)?
([<>\w\[\],\s?]+)\s+(\w+)\s*\((.*?)\)\s*(?:throws\s+[\w\s,.<>]+)?\s*\x7b
compiled with re.MULTILINE. -/
def appMethodRe : Re := rSeq [
  .bol true, rStarG ccS,
  rOpt (.group 1 reVis), rStarG ccS,
  rOpt (.group 2 (.seq (rStr "static") (rPlusG ccS))),
  rOpt (.group 3 (.seq (rStr "final") (rPlusG ccS))),
  rOpt (.group 4 (.seq (rStr "synchronized") (rPlusG ccS))),
  .group 5 (rPlusG ccRT), rPlusG ccS,
  .group 6 (rPlusG ccW), rStarG ccS,
  rStr "(", .group 7 (.star true (.cls ccDot)), rStr ")", rStarG ccS,
  rOpt (rSeq [rStr "throws", rPlusG ccS, rPlusG ccThrows]), rStarG ccS,
  rStr "\x7b"]

/-- The constructor pattern of extract_api.py and extract_app_docs.py,
with the class name interpolated:
^\s*(public|protected|private)?\s+NAME\s*\((.*?)\)\s*\x7b
compiled with re.MULTILINE | re.DOTALL (so . also matches a newline). -/
def appCtorRe (className : String) : Re := rSeq [
  .bol true, rStarG ccS,
  rOpt (.group 1 reVis), rPlusG ccS,
  rStr className, rStarG ccS,
  rStr "(", .group 2 (.star true (.cls ccDotAll)), rStr ")", rStarG ccS,
  rStr "\x7b"]

/-- The class pattern of extract_app_docs.py (re.MULTILINE):
^\s*(?:public|protected|private)?\s*(?:abstract|static|final)*\s*
(?:class|interface|enum|record)\s+(\w+)(?:\s+extends\s+([\w.]+))?
(?:\s+implements\s+([\w.,\s]+))? -/
def ccImpl : CC := ⟨false, [.word, .lit '.', .lit ',', .space]⟩

def appClassRe : Re := rSeq [
  .bol true, rStarG ccS,
  rOpt reVis, rStarG ccS,
  .star false (.alt (rStr "abstract") (.alt (rStr "static") (rStr "final"))), rStarG ccS,
  .alt (rStr "class") (.alt (rStr "interface") (.alt (rStr "enum") (rStr "record"))),
  rPlusG ccS, .group 1 (rPlusG ccW),
  rOpt (rSeq [rPlusG ccS, rStr "extends", rPlusG ccS, .group 2 (rPlusG ccWdot)]),
  rOpt (rSeq [rPlusG ccS, rStr "implements", rPlusG ccS, .group 3 (rPlusG ccImpl)])]

/-- ^\s*\*\s? : the javadoc decoration pattern (no MULTILINE). -/
def starPrefixRe : Re := rSeq [.bol false, rStarG ccS, rStr "*", rOpt (.cls ccS)]

/-- @param\s+(\w+)\s+(.+) used with re.match. -/
def paramTagRe : Re := rSeq [
  rStr "@param", rPlusG ccS, .group 1 (rPlusG ccW), rPlusG ccS, .group 2 (rPlusG ccDot)]

/-- @return\s+ used with re.sub. -/
def returnTagRe : Re := rSeq [rStr "@return", rPlusG ccS]

/-- [\w<>\[\]]+ : the return-type class of analyze_code.py. -/
def ccRT2 : CC := ⟨false, [.word, .lit '<', .lit '>', .lit '[', .lit ']']⟩

/-- [^)]* complement class. -/
def ccNotRP : CC := ⟨true, [.lit ')']⟩

/-- [\w\s,]+ : throws-clause class of analyze_code.py. -/
def ccThrows2 : CC := ⟨false, [.word, .space, .lit ',']⟩

/-- The method pattern of analyze_code.py (re.MULTILINE):
^\s*(public|protected|private|)\s*(?:static\s+)?(?:final\s+)?(?:synchronized\s+)?
([\w<>\[\]]+)\s+(\w+)\s*\(([^)]*)\)\s*(?:throws\s+[\w\s,]+)?\s*\x7b -/
def acMethodRe : Re := rSeq [
  .bol true, rStarG ccS,
  .group 1 reVisE, rStarG ccS,
  rOpt (.seq (rStr "static") (rPlusG ccS)),
  rOpt (.seq (rStr "final") (rPlusG ccS)),
  rOpt (.seq (rStr "synchronized") (rPlusG ccS)),
  .group 2 (rPlusG ccRT2), rPlusG ccS,
  .group 3 (rPlusG ccW), rStarG ccS,
  rStr "(", .group 4 (rStarG ccNotRP), rStr ")", rStarG ccS,
  rOpt (rSeq [rStr "throws", rPlusG ccS, rPlusG ccThrows2]), rStarG ccS,
  rStr "\x7b"]

/-- The constructor pattern of analyze_code.py (re.MULTILINE):
^\s*(public|protected|private|)\s+NAME\s*\(([^)]*)\)\s*\x7b -/
def acCtorRe (className : String) : Re := rSeq [
  .bol true, rStarG ccS,
  .group 1 reVisE, rPlusG ccS,
  rStr className, rStarG ccS,
  rStr "(", .group 2 (rStarG ccNotRP), rStr ")", rStarG ccS,
  rStr "\x7b"]

/-- (?:public\s+)?(?:abstract\s+)?(?:class|interface|enum|record)\s+(\w+)
used by analyze_code.py with plain re.search (no MULTILINE). -/
def acClassRe : Re := rSeq [
  rOpt (.seq (rStr "public") (rPlusG ccS)),
  rOpt (.seq (rStr "abstract") (rPlusG ccS)),
  .alt (rStr "class") (.alt (rStr "interface") (.alt (rStr "enum") (rStr "record"))),
  rPlusG ccS, .group 1 (rPlusG ccW)]

/-- (extends|implements)\s+(\w+) used by infer_class_description. -/
def extImplRe : Re := rSeq [
  .group 1 (.alt (rStr "extends") (rStr "implements")),
  rPlusG ccS, .group 2 (rPlusG ccW)]

/-- \b([A-Z]\w+)\b used by the collaborator scan of analyze_code.py. -/
def capWordRe : Re := rSeq [.wb, .group 1 (.seq (.cls ccUpper) (rPlusG ccW)), .wb]

end Pat

/-! Insertion-ordered dictionaries (Python dict): value overwrite keeps the
original position, a new key is appended. -/

def dictGet {α : Type} (d : List (String × α)) (k : String) : Option α :=
  (d.find? (fun p => decide (p.1 = k))).map (fun p => p.2)

def dictMem {α : Type} (d : List (String × α)) (k : String) : Bool :=
  (d.find? (fun p => decide (p.1 = k))).isSome

def dictInsert {α : Type} (d : List (String × α)) (k : String) (v : α) :
    List (String × α) :=
  if dictMem d k then d.map (fun p => if p.1 = k then (k, v) else p) else d ++ [(k, v)]

def dictUpd {α : Type} (d : List (String × α)) (k : String) (f : α → α) :
    List (String × α) :=
  d.map (fun p => if p.1 = k then (p.1, f p.2) else p)

def dictKeys {α : Type} (d : List (String × α)) : List String := d.map (fun p => p.1)

namespace App
open PyStr Rex Pat

/-! Embedding of src/docs/extract_app_docs.py (class JavaMethodExtractor).
extract_javadoc, extract_methods, split_parameters and build_signature are
letter-identical in src/docs/extract_api.py, so this embedding covers both
files (the extract_api variant merely omits the line fields). -/

structure MParam where
  type : String
  name : String
  description : String
  deriving DecidableEq

structure CParam where
  type : String
  name : String
  deriving DecidableEq

structure Method where
  name : String
  line : Nat
  visibility : String
  static : String
  returnType : String
  parameters : List MParam
  signature : String
  description : String
  returns : String
  deriving DecidableEq

structure Ctor where
  name : String
  line : Nat
  visibility : String
  parameters : List CParam
  signature : String
  deriving DecidableEq

structure ClassData where
  package : String
  className : String
  file : String
  line : Nat
  extendsName : Option String
  implementsNames : List String
  imports : List String
  constructors : List Ctor
  methods : List Method
  usedBy : List String
  uses : List String
  deriving DecidableEq

structure Javadoc where
  description : String
  params : List (String × String)
  returns : String
  deriving DecidableEq

/-- True when the stripped line ends in a closing brace or a semicolon
(the walk of extract_javadoc stops at such a previous-statement line). -/
def stopLineB (line : String) : Bool :=
  strEndsWith (pystrip line) "\x7d" || strEndsWith (pystrip line) ";"

/-- The backward walk of extract_javadoc over the reversed 10-line window:
stops at a statement line, counts blank lines cumulatively and stops once
more than 2 have been seen; returns the retained lines in walk order
(signature side first). -/
def windowWalk : List String → Nat → List String
  | [], _ => []
  | line :: rest, blanks =>
    if stopLineB line then []
    else if pystrip line = "" then
      (if blanks + 1 > 2 then [] else line :: windowWalk rest (blanks + 1))
    else line :: windowWalk rest blanks

/-- The javadoc-recognition loop of extract_javadoc, over walk-order lines
(nearest the signature first): a closing marker arms collection, an opening
marker stops it; collected lines are cleaned of leading decoration. -/
def jdCollect : List String → Bool → List String → List String
  | [], _, acc => acc
  | line :: rest, inJ, acc =>
    let s := pystrip line
    if strStartsWith s "*/" then jdCollect rest true acc
    else if strStartsWith s "/**" then acc
    else if inJ then
      let cl := String.mk (reSub starPrefixRe [] line.data)
      jdCollect rest inJ (if cl = "" then acc else cl :: acc)
    else jdCollect rest inJ acc

/-- The tag-parsing loop of extract_javadoc over the collected lines. -/
def jdTagsAux : List String → List (String × String) → String → List String →
    (List (String × String) × String × List String)
  | [], ps, ret, dls => (ps, ret, dls)
  | line :: rest, ps, ret, dls =>
    let s := pystrip line
    if strStartsWith s "@param" then
      match reMatchL paramTagRe s.data with
      | some m =>
        match groupS m 1, groupS m 2 with
        | some pn, some pd => jdTagsAux rest (dictInsert ps pn pd) ret dls
        | _, _ => jdTagsAux rest ps ret dls
      | none => jdTagsAux rest ps ret dls
    else if strStartsWith s "@return" then
      jdTagsAux rest ps (String.mk (reSub returnTagRe [] s.data)) dls
    else if strStartsWith s "@" then jdTagsAux rest ps ret dls
    else jdTagsAux rest ps ret (dls ++ [s])

/-- The examined window of extract_javadoc: the retained lines of the
backward walk over the last 10 line fragments before the signature. -/
def examinedWindow (content : String) (pos : Nat) : List String :=
  windowWalk (lastN 10 (pysplit '\n' (String.mk (content.data.take pos)))).reverse 0

/-- extract_javadoc of extract_app_docs.py (identical in extract_api.py). -/
def extract_javadoc (content : String) (pos : Nat) : Javadoc :=
  let jls := jdCollect (examinedWindow content pos) false []
  if jls.isEmpty then ⟨"", [], ""⟩
  else
    let (ps, ret, dls) := jdTagsAux jls [] "" []
    ⟨pystrip (pyJoin " " dls), ps, ret⟩

/-- split_parameters: split on commas at bracket depth zero only, where the
depth counts opening < [ against closing > ]. -/
def splitParamsAux : List Char → List String → List Char → Int → List String
  | [], params, cur, _ =>
    if cur.isEmpty then params else params ++ [String.mk cur.reverse]
  | c :: rest, params, cur, depth =>
    if c = '<' ∨ c = '[' then splitParamsAux rest params (c :: cur) (depth + 1)
    else if c = '>' ∨ c = ']' then splitParamsAux rest params (c :: cur) (depth - 1)
    else if c = ',' ∧ depth = 0 then
      splitParamsAux rest (params ++ [String.mk cur.reverse]) [] depth
    else splitParamsAux rest params (c :: cur) depth

def split_parameters (s : String) : List String := splitParamsAux s.data [] [] 0

/-- build_signature. -/
def build_signature (vis isStatic rt name : String) (ps : List MParam) : String :=
  let parts := (if vis ≠ "" then [vis] else []) ++
    (if isStatic ≠ "" then ["static"] else []) ++ [rt, name]
  pyJoin " " parts ++ "(" ++
    pyJoin ", " (ps.map (fun p => p.type ++ " " ++ p.name)) ++ ")"

def controlKeywords : List String :=
  ["if", "else", "for", "while", "switch", "case", "try", "catch", "finally", "do"]

/-- Parameter parsing of extract_methods: split, strip, drop comment
fragments, split type from name at the last space, strip default values. -/
def mkParams (jd : Javadoc) (paramsStr : String) : List MParam :=
  if paramsStr = "" then []
  else (split_parameters paramsStr).filterMap (fun param0 =>
    let param := pystrip param0
    if param ≠ "" ∧ ¬ strStartsWith param "//" then
      match rsplitSp param with
      | some (pt, pn0) =>
        let pn := pystrip (String.mk (pn0.data.takeWhile (fun c => ¬ c = '=')))
        some ⟨pystrip pt, pn, (dictGet jd.params pn).getD ""⟩
      | none => none
    else none)

/-- One candidate match of the shared method pattern, filtered exactly as in
the source: control keywords, constructors, missing or visibility-keyword or
name-equal return types, and return types holding comment or brace junk are
all dropped. -/
def methodOfMatch (content className : String) (m : Rex.M) : Option Method :=
  let visibility := (Rex.groupS m 1).getD "package-private"
  let isStatic := if (Rex.groupS m 2).isSome then "static" else ""
  let returnType := pystrip ((Rex.groupS m 5).getD "")
  let methodName := (Rex.groupS m 6).getD ""
  let paramsStr := pystrip ((Rex.groupS m 7).getD "")
  if methodName ∈ controlKeywords then none
  else if methodName = className then none
  else if returnType = "" ∨ returnType ∈ ["public", "private", "protected"] then none
  else if returnType = methodName then none
  else if ['*', '/', '\x7b', '\x7d', ';'].any (fun c => returnType.data.contains c) then none
  else
    let jd := extract_javadoc content m.s
    let parameters := mkParams jd paramsStr
    some ⟨methodName, lineNumber content m.s, visibility, isStatic, returnType, parameters,
      build_signature visibility isStatic returnType methodName parameters,
      jd.description, jd.returns⟩

/-- extract_methods of extract_app_docs.py / extract_api.py. -/
def extract_methods (content className : String) : List Method :=
  (reFindIter appMethodRe content.data).filterMap (methodOfMatch content className)

/-- Constructor parameter parsing (no comment filter, no default stripping). -/
def mkCParams (paramsStr : String) : List CParam :=
  if paramsStr = "" then []
  else (split_parameters paramsStr).filterMap (fun param0 =>
    let param := pystrip param0
    if param ≠ "" then
      match rsplitSp param with
      | some (pt, pn) => some ⟨pystrip pt, pystrip pn⟩
      | none => none
    else none)

def ctorOfMatch (content className : String) (m : Rex.M) : Ctor :=
  let visibility := (Rex.groupS m 1).getD "package-private"
  let paramsStr := pystrip ((Rex.groupS m 2).getD "")
  let parameters := mkCParams paramsStr
  let paramList := pyJoin ", " (parameters.map (fun p => p.type ++ " " ++ p.name))
  ⟨className, lineNumber content m.s, visibility, parameters,
    visibility ++ " " ++ className ++ "(" ++ paramList ++ ")"⟩

/-- extract_constructors of extract_app_docs.py. -/
def extract_constructors (content className : String) : List Ctor :=
  (reFindIter (appCtorRe className) content.data).map (ctorOfMatch content className)

def extract_package (content : String) : String :=
  match reSearch packageRe content.data with
  | some m => (groupS m 1).getD "default"
  | none => "default"

def extract_imports (content : String) : List String :=
  (reFindIter importRe content.data).filterMap (fun m => groupS m 1)

structure ClassInfo where
  name : String
  extendsName : Option String
  implementsNames : List String
  line : Nat
  deriving DecidableEq

/-- extract_class_info. -/
def extract_class_info (content : String) : ClassInfo :=
  match reSearch appClassRe content.data with
  | none => ⟨"Unknown", none, [], 1⟩
  | some m =>
    let impl := match groupS m 3 with
      | some g3 => if g3 ≠ "" then (pysplit ',' g3).map pystrip else []
      | none => []
    ⟨(groupS m 1).getD "Unknown", groupS m 2, impl, lineNumber content m.s⟩

/-- process_file over an already-read (path, text) pair; reading the file and
computing the display path are the external I/O boundary. -/
def process_file (srcPath content : String) : Option ClassData :=
  let package := extract_package content
  let ci := extract_class_info content
  if ci.name = "Unknown" then none
  else some ⟨package, ci.name, srcPath, ci.line, ci.extendsName, ci.implementsNames,
    extract_imports content,
    extract_constructors content ci.name,
    extract_methods content ci.name, [], []⟩

/-- The whole mutable state of JavaMethodExtractor: api_data and class_lookup. -/
structure XState where
  api : List (String × ClassData)
  lookup : List (String × String)
  deriving DecidableEq

def pass1Step (st : XState) (f : String × String) : XState :=
  match process_file f.1 f.2 with
  | none => st
  | some cd =>
    let fullName := cd.package ++ "." ++ cd.className
    ⟨dictInsert st.api fullName cd, dictInsert st.lookup cd.className fullName⟩

/-- Pass 1 of extract_all over the ordered input set of (path, text) pairs
(directory traversal and path sorting are the external I/O boundary). -/
def pass1 (files : List (String × String)) : XState :=
  files.foldl pass1Step ⟨[], []⟩

/-- The candidate binding of the wildcard branch of the import loop:
imp[:-2] plus the dot and the simple name. -/
def wildcardCand (imp simpleName : String) : String :=
  String.mk imp.data.dropLast.dropLast ++ "." ++ simpleName

/-- The import loop of resolve_class: each import is tried first as an exact
match (returned unverified) and then as a wildcard (verified against the
collected declarations). -/
def importScan (api : List (String × ClassData)) (simpleName : String) :
    List String → Option String
  | [] => none
  | imp :: rest =>
    if strEndsWith imp ("." ++ simpleName) then some imp
    else if strEndsWith imp ".*" then
      (if dictMem api (wildcardCand imp simpleName) then some (wildcardCand imp simpleName)
       else importScan api simpleName rest)
    else importScan api simpleName rest

/-- resolve_class; the same-package candidate of the source is written out
at both of its uses. -/
def resolve_class (api : List (String × ClassData)) (lookup : List (String × String))
    (simpleName : String) (ctx : ClassData) : Option String :=
  if simpleName = "" then none
  else if dictMem api (ctx.package ++ "." ++ simpleName) then
    some (ctx.package ++ "." ++ simpleName)
  else match importScan api simpleName ctx.imports with
    | some r => some r
    | none => dictGet lookup simpleName

/-- add_usage: the target is checked for presence; the source is then
accessed unconditionally (a missing source would be a Python KeyError,
modelled as none). Both appends are deduplicated by membership. -/
def add_usage (st : XState) (targetClass sourceClass : String) : Option XState :=
  if dictMem st.api targetClass then
    let api1 := dictUpd st.api targetClass (fun cd =>
      if sourceClass ∈ cd.usedBy then cd else { cd with usedBy := cd.usedBy ++ [sourceClass] })
    if dictMem api1 sourceClass then
      some { st with api := dictUpd api1 sourceClass (fun cd =>
        if targetClass ∈ cd.uses then cd else { cd with uses := cd.uses ++ [targetClass] }) }
    else none
  else some st

/-- The type-expression cleanup of check_reference:
re.sub of the one-character class [\[\]<>,] by a space (written here as the
equivalent character map) followed by .split()[0]; an empty token list is a
Python IndexError, modelled as none. -/
def base_type (typeStr : String) : Option String :=
  (pysplitWs (String.mk (typeStr.data.map (fun c =>
    if c = '[' ∨ c = ']' ∨ c = '<' ∨ c = '>' ∨ c = ',' then ' ' else c)))).head?

/-- check_reference. -/
def check_reference (st : XState) (typeStr consumerName : String) (ctx : ClassData) :
    Option XState :=
  match base_type typeStr with
  | none => none
  | some bt =>
    match resolve_class st.api st.lookup bt ctx with
    | none => some st
    | some targetFull =>
      if targetFull ≠ consumerName then add_usage st targetFull consumerName
      else some st

/-- One iteration of the analyze_scope loop for one consumer class: the
supertype reference, then every method return and parameter type, then
every constructor parameter type. -/
def scopeStep (st : XState) (consumerName : String) : Option XState :=
  match dictGet st.api consumerName with
  | none => some st
  | some cd =>
    Option.bind
      (match cd.extendsName with
       | some parent =>
         if parent ≠ "" then
           match resolve_class st.api st.lookup parent cd with
           | some parentFull => add_usage st parentFull consumerName
           | none => some st
         else some st
       | none => some st)
      (fun st1 =>
        Option.bind
          (cd.methods.foldlM (fun s m =>
            Option.bind (check_reference s m.returnType consumerName cd) (fun s1 =>
              m.parameters.foldlM (fun s p => check_reference s p.type consumerName cd) s1)) st1)
          (fun st2 =>
            cd.constructors.foldlM (fun s c =>
              c.parameters.foldlM (fun s p => check_reference s p.type consumerName cd) s) st2))

/-- analyze_scope: pass 2 over every collected class, in dictionary order. -/
def analyze_scope (st : XState) : Option XState :=
  (dictKeys st.api).foldlM scopeStep st

/-- extract_all: pass 1 collects, pass 2 resolves; none models an uncaught
exception aborting the run before any model is produced. -/
def extract_all (files : List (String × String)) : Option XState :=
  analyze_scope (pass1 files)

def usesOf (st : XState) (k : String) : List String :=
  match dictGet st.api k with | some cd => cd.uses | none => []

def usedByOf (st : XState) (k : String) : List String :=
  match dictGet st.api k with | some cd => cd.usedBy | none => []

end App

namespace AC
open PyStr Rex Pat

/-! Embedding of src/docs/analyze_code.py (class JavaParser). -/

structure ACMethod where
  name : String
  visibility : String
  returnType : String
  params : String
  description : String
  connections : List String
  codeSnippet : String
  deriving DecidableEq

structure ACClass where
  name : String
  package : Option String
  file : String
  methods : List ACMethod
  description : String
  dependencies : List String
  deriving DecidableEq

/-- The character loop of extract_body: a running signed brace count over
every character (strings and comments are not distinguished), collecting
characters until the count returns to zero after the first opening brace. -/
def bodyLoop : List Char → Int → Bool → List Char
  | [], _, _ => []
  | c :: rest, stack, found =>
    let stack' := if c = '\x7b' then stack + 1
      else if c = '\x7d' then stack - 1 else stack
    let found' := found || c = '\x7b'
    c :: (if found' ∧ stack' = 0 then [] else bodyLoop rest stack' found')

/-- The wrapper-brace removal of extract_body: body[1:-1].strip() when the
collected span starts with an opening and ends with a closing brace. -/
def bodyPost (body : List Char) : String :=
  if body.head? = some '\x7b' ∧ body.getLast? = some '\x7d' then
    String.mk (stripL body.tail.dropLast)
  else String.mk body

/-- extract_body of analyze_code.py. -/
def extract_body (content : String) (startIndex : Nat) : String :=
  bodyPost (bodyLoop (content.data.drop startIndex) 0 false)

/-- An enumeration of a Python set: list(set(xs)) is modelled as an arbitrary
reordering (determined outside the program by the string hash seed of the
process) of the distinct elements of xs. -/
abbrev Enum := List String → List String

def pySetList (e : Enum) (xs : List String) : List String := e xs.dedup

/-- A faithful enumeration yields the set elements, in some order. -/
def ValidEnum (e : Enum) : Prop := ∀ l : List String, (e l).Perm l

/-- The ordered rule table of infer_method_logic that accumulates the
description fragments (the body.split newline binding of the source is
unused there and is omitted). -/
def ruleDescs (name body returnType : String) : List String :=
  (if strContains body "System.out.println" then ["Logs status to console."] else []) ++
  (if strContains body "commandManager.execute" || strContains body "cmdMgr.execute" then
    ["Dispatches a command for execution."] else []) ++
  (if strContains (pylower name) "notify" || strContains (pylower name) "fire" then
    ["Notifies registered listeners."] else []) ++
  (if strContains body "return" ∧ returnType ≠ "void" then
    (if strContains body "calculated" || strContains body "Math." then
      ["Computes and returns the result."] else ["Returns the requested value."]) else []) ++
  (if strContains body "this." && strContains body "=" then
    ["Updates internal state properties."] else []) ++
  (if strContains (pylower name) "add" && strContains (pylower body) "list" then
    ["Adds item to internal collection."] else []) ++
  (if strContains (pylower name) "remove" then ["Removes item from collection."] else [])

/-- The name-prefix fallback of infer_method_logic. -/
def fallbackDesc (name : String) : String :=
  if strStartsWith name "get" then "Retrieves " ++ String.mk (name.data.drop 3) ++ "."
  else if strStartsWith name "set" then "Sets " ++ String.mk (name.data.drop 3) ++ "."
  else if strStartsWith name "is" then "Checks if " ++ String.mk (name.data.drop 2) ++ "."
  else "Executes custom logic."

/-- The collaborator scan of infer_method_logic: the dispatch rule connection,
then the capitalized identifiers of the body as a set, filtered against the
built-in denylist and the member name, and a final set pass. -/
def connList (e : Enum) (name body : String) : List String :=
  let ruleConns := if strContains body "commandManager.execute" ||
      strContains body "cmdMgr.execute" then ["CommandManager"] else []
  let ignoreList : List String := ["String", "Math", "System", "List", "ArrayList",
    "Float", "Integer", "Object", "Exception", "Override", "Deprecated"]
  let potential := pySetList e ((reFindAll1 capWordRe body.data).map String.mk)
  let conns := ruleConns ++ potential.filter (fun cls => cls ∉ ignoreList ∧ cls ≠ name)
  pySetList e conns

structure Inference where
  description : String
  connections : List String
  deriving DecidableEq

/-- infer_method_logic of analyze_code.py. -/
def infer_method_logic (e : Enum) (name body params returnType : String) : Inference :=
  let _ := params
  let desc := ruleDescs name body returnType
  let desc := if desc.isEmpty then [fallbackDesc name] else desc
  ⟨pyJoin " " desc, connList e name body⟩

/-- One candidate of the method pattern of analyze_code.py; only the five
control keywords of the source are rejected. -/
def methodOfMatch (e : Enum) (content className : String) (m : Rex.M) :
    Option ACMethod :=
  let _ := className
  let vis0 := (groupS m 1).getD ""
  let visibility := if vis0 = "" then "package-private" else vis0
  let returnType := (groupS m 2).getD ""
  let name := (groupS m 3).getD ""
  let params := (groupS m 4).getD ""
  if name ∈ ["if", "for", "while", "switch", "catch"] then none
  else
    let body := extract_body content (m.e - 1)
    let inf := infer_method_logic e name body params returnType
    some ⟨name, pystrip visibility, returnType, params, inf.description, inf.connections,
      if 200 < strLen body then strTake body 200 ++ "..." else body⟩

/-- One candidate of the separate constructor pass of analyze_code.py; note
that its excerpt is body[:200] with no truncation marker. -/
def ctorOfMatch (e : Enum) (content className : String) (m : Rex.M) : ACMethod :=
  let vis0 := (groupS m 1).getD ""
  let visibility := if vis0 = "" then "package-private" else vis0
  let params := (groupS m 2).getD ""
  let body := extract_body content (m.e - 1)
  let inf := infer_method_logic e className body params "constructor"
  ⟨className, pystrip visibility, "constructor", params,
    "Initializes " ++ className ++ ". " ++ inf.description, inf.connections,
    strTake body 200⟩

/-- extract_methods of analyze_code.py: the method pass then the
constructor pass. -/
def extract_methods (e : Enum) (content className : String) : List ACMethod :=
  (reFindIter acMethodRe content.data).filterMap (methodOfMatch e content className) ++
  (reFindIter (acCtorRe className) content.data).map (ctorOfMatch e content className)

/-- infer_class_description. -/
def infer_class_description (content className : String) : String :=
  match reSearch extImplRe content.data with
  | some m =>
    "A component that " ++ ((groupS m 1).getD "") ++ " " ++ ((groupS m 2).getD "") ++ "."
  | none => "Core component " ++ className ++ "."

/-- extract_dependencies: imported names outside java., by simple name. -/
def extract_dependencies (content : String) : List String :=
  ((reFindIter importRe content.data).filterMap (fun m => groupS m 1)).filterMap
    (fun imp => if strStartsWith imp "java." then none
      else some (((pysplit '.' imp).getLast?).getD imp))

/-- parse_file over an already-read (path, text) pair. -/
def parse_file (e : Enum) (filePath content : String) : Option (String × ACClass) :=
  let package := (reSearch packageRe content.data).bind (fun m => groupS m 1)
  match (reSearch acClassRe content.data).bind (fun m => groupS m 1) with
  | none => none
  | some cn =>
    let fullName := match package with
      | some p => if p ≠ "" then p ++ "." ++ cn else cn
      | none => cn
    some (fullName, ⟨cn, package, filePath, extract_methods e content cn,
      infer_class_description content cn, extract_dependencies content⟩)

/-- parse_directory over the ordered input set (globbing is the external
I/O boundary; parse_file is total, so its try/except never fires). -/
def run (e : Enum) (files : List (String × String)) : List (String × ACClass) :=
  files.foldl (fun st f =>
    match parse_file e f.1 f.2 with
    | none => st
    | some kv => dictInsert st kv.1 kv.2) []

end AC

namespace SpecModel
open PyStr

/-! Definitions modelled from the spec, for refinement comparison only: the
code has no Lexical Classifier component. -/

inductive LMode
  | code
  | line
  | block
  | strq
  deriving DecidableEq

/-- Modelled from the spec: the Lexical Classifier of section 4.1, which is
missing from the code. Tags every character with true when it lies in a Code
span: // opens a line comment ending at the next line break (exclusive);
/* opens a block comment ending at the first */ (inclusive) or end of input;
a quote opens a string literal honoring backslash escapes. -/
def specFlags : LMode → List Char → List Bool
  | _, [] => []
  | .code, '/' :: '/' :: rest => false :: false :: specFlags .line rest
  | .code, '/' :: '*' :: rest => false :: false :: specFlags .block rest
  | .code, '"' :: rest => false :: specFlags .strq rest
  | .code, _ :: rest => true :: specFlags .code rest
  | .line, '\n' :: rest => true :: specFlags .code rest
  | .line, _ :: rest => false :: specFlags .line rest
  | .block, '*' :: '/' :: rest => false :: false :: specFlags .code rest
  | .block, _ :: rest => false :: specFlags .block rest
  | .strq, '\\' :: _ :: rest => false :: false :: specFlags .strq rest
  | .strq, '"' :: rest => false :: specFlags .code rest
  | .strq, _ :: rest => false :: specFlags .strq rest

/-- Modelled from the spec: the Body Extractor of section 4.3 as the spec
words it, with depth counted on Code braces only (sections 4.1 and 4.3). -/
def specBodyLoop : List (Char × Bool) → Int → Bool → List Char
  | [], _, _ => []
  | (c, isCode) :: rest, stack, found =>
    let stack' := if c = '\x7b' ∧ isCode then stack + 1
      else if c = '\x7d' ∧ isCode then stack - 1 else stack
    let found' := found || (c = '\x7b' && isCode)
    c :: (if found' ∧ stack' = 0 then [] else specBodyLoop rest stack' found')

/-- Modelled from the spec: the classifier-aware body extraction that the
claim attributes to extract_body. -/
def spec_extract_body (content : String) (startIndex : Nat) : String :=
  let flagged := (content.data.zip (specFlags .code content.data)).drop startIndex
  AC.bodyPost (specBodyLoop flagged 0 false)

end SpecModel

/-! Shared lemmas about dictionaries, Option folds, and the pass-2 state. -/

theorem dictKeys_dictUpd {α : Type} (d : List (String × α)) (k : String) (f : α → α) :
    dictKeys (dictUpd d k f) = dictKeys d := by
  simp only [dictUpd, dictKeys, List.map_map]
  congr 1
  funext p
  by_cases h : p.1 = k <;> simp [h]

theorem dictMem_eq_true_iff {α : Type} (d : List (String × α)) (k : String) :
    dictMem d k = true ↔ k ∈ dictKeys d := by
  simp only [dictMem, Option.isSome_iff_exists]
  constructor
  · rintro ⟨p, hp⟩
    have hm := List.mem_of_find?_eq_some hp
    have hk := List.find?_some hp
    simp only [decide_eq_true_eq] at hk
    exact hk ▸ List.mem_map_of_mem Prod.fst hm
  · intro hk
    rcases List.mem_map.mp hk with ⟨p, hp, he⟩
    have : ∃ x, x ∈ d ∧ (fun q => decide (q.1 = k)) x = true :=
      ⟨p, hp, by simp [he]⟩
    rcases List.find?_isSome.mpr this |> Option.isSome_iff_exists.mp with ⟨q, hq⟩
    exact ⟨q, hq⟩

theorem dictGet_mem {α : Type} {d : List (String × α)} {k : String} {v : α}
    (h : dictGet d k = some v) : (k, v) ∈ d := by
  simp only [dictGet, Option.map_eq_some'] at h
  rcases h with ⟨p, hp, hv⟩
  have hm := List.mem_of_find?_eq_some hp
  have hk := List.find?_some hp
  simp only [decide_eq_true_eq] at hk
  cases p with
  | mk a b =>
    simp only at hk hv
    subst hk; subst hv; exact hm

theorem mem_dictUpd {α : Type} {d : List (String × α)} {k : String} {f : α → α}
    {q : String × α} (h : q ∈ dictUpd d k f) :
    ∃ p ∈ d, q.1 = p.1 ∧ (q.2 = p.2 ∨ q.2 = f p.2) := by
  rcases List.mem_map.mp h with ⟨p, hp, he⟩
  subst he
  by_cases hk : p.1 = k
  · exact ⟨p, hp, by simp [hk], Or.inr (by simp [hk])⟩
  · exact ⟨p, hp, by simp [hk], Or.inl (by simp [hk])⟩

theorem mem_dictInsert {α : Type} {d : List (String × α)} {k : String} {v : α}
    {q : String × α} (h : q ∈ dictInsert d k v) : q ∈ d ∨ q = (k, v) := by
  unfold dictInsert at h
  split at h
  · rcases List.mem_map.mp h with ⟨p, hp, he⟩
    by_cases hk : p.1 = k
    · simp [hk] at he; right; exact he.symm
    · simp [hk] at he; left; exact he ▸ hp
  · rcases List.mem_append.mp h with h | h
    · exact Or.inl h
    · right; simpa using h

theorem foldlM_option_inv {σ α : Type} {P : σ → Prop} {Q : α → Prop} {f : σ → α → Option σ}
    (hf : ∀ s a s', P s → Q a → f s a = some s' → P s') :
    ∀ (l : List α) (s s' : σ), (∀ a ∈ l, Q a) → P s → List.foldlM f s l = some s' → P s' := by
  intro l
  induction l with
  | nil =>
    intro s s' _ hP h
    simp only [List.foldlM_nil] at h
    cases h; exact hP
  | cons a l ih =>
    intro s s' hQ hP h
    rw [List.foldlM_cons] at h
    cases hfa : f s a with
    | none => rw [hfa] at h; cases h
    | some s1 =>
      rw [hfa] at h
      exact ih s1 s' (fun x hx => hQ x (List.mem_cons_of_mem _ hx))
        (hf s a s1 hP (hQ a (List.mem_cons_self _ _)) hfa) h

theorem process_file_lists {p c : String} {cd : App.ClassData}
    (h : App.process_file p c = some cd) : cd.uses = [] ∧ cd.usedBy = [] := by
  simp only [App.process_file] at h
  split at h
  · cases h
  · cases h; exact ⟨rfl, rfl⟩

theorem pass1_lists (files : List (String × String)) :
    ∀ q ∈ (App.pass1 files).api, q.2.uses = [] ∧ q.2.usedBy = [] := by
  have gen : ∀ (fs : List (String × String)) (st : App.XState),
      (∀ q ∈ st.api, q.2.uses = [] ∧ q.2.usedBy = []) →
      ∀ q ∈ (fs.foldl App.pass1Step st).api, q.2.uses = [] ∧ q.2.usedBy = [] := by
    intro fs
    induction fs with
    | nil => intro st h; simpa using h
    | cons f fs ih =>
      intro st h
      simp only [List.foldl_cons]
      apply ih
      intro q hq
      unfold App.pass1Step at hq
      cases hp : App.process_file f.1 f.2 with
      | none => rw [hp] at hq; exact h q hq
      | some cd =>
        rw [hp] at hq
        simp only at hq
        rcases mem_dictInsert hq with hq | hq
        · exact h q hq
        · rw [hq]; exact process_file_lists hp
  exact gen files ⟨[], []⟩ (by simp)

/-- The combined list invariant of pass 2: every recorded endpoint is a key
of the model and both adjacency lists are duplicate-free. -/
def ListsCond (K : List String) (cd : App.ClassData) : Prop :=
  (∀ x ∈ cd.uses, x ∈ K) ∧ (∀ x ∈ cd.usedBy, x ∈ K) ∧ cd.uses.Nodup ∧ cd.usedBy.Nodup

def StInv (K : List String) (st : App.XState) : Prop :=
  dictKeys st.api = K ∧ ∀ q ∈ st.api, ListsCond K q.2

theorem ListsCond_addUsedBy {K : List String} {cd : App.ClassData} {s : String}
    (h : ListsCond K cd) (hs : s ∈ K) :
    ListsCond K (if s ∈ cd.usedBy then cd else { cd with usedBy := cd.usedBy ++ [s] }) := by
  split
  · exact h
  · rcases h with ⟨h1, h2, h3, h4⟩
    refine ⟨h1, ?_, h3, ?_⟩
    · intro x hx
      rcases List.mem_append.mp hx with hx | hx
      · exact h2 x hx
      · simp at hx; exact hx ▸ hs
    · simp only [List.nodup_append, List.nodup_cons]
      refine ⟨h4, by simp, ?_⟩
      intro x hx hx1
      simp at hx1
      subst hx1
      exact absurd hx (by assumption)

theorem ListsCond_addUses {K : List String} {cd : App.ClassData} {t : String}
    (h : ListsCond K cd) (ht : t ∈ K) :
    ListsCond K (if t ∈ cd.uses then cd else { cd with uses := cd.uses ++ [t] }) := by
  split
  · exact h
  · rcases h with ⟨h1, h2, h3, h4⟩
    refine ⟨?_, h2, ?_, h4⟩
    · intro x hx
      rcases List.mem_append.mp hx with hx | hx
      · exact h1 x hx
      · simp at hx; exact hx ▸ ht
    · simp only [List.nodup_append, List.nodup_cons]
      refine ⟨h3, by simp, ?_⟩
      intro x hx hx1
      simp at hx1
      subst hx1
      exact absurd hx (by assumption)

theorem add_usage_inv {K : List String} {st : App.XState} {t s : String} {st' : App.XState}
    (hi : StInv K st) (hs : s ∈ K) (h : App.add_usage st t s = some st') : StInv K st' := by
  simp only [App.add_usage] at h
  split at h
  case isTrue hm =>
    have ht : t ∈ K := hi.1 ▸ (dictMem_eq_true_iff st.api t).mp hm
    split at h
    case isTrue hm2 =>
      cases h
      constructor
      · simp only [dictKeys_dictUpd]; exact hi.1
      · intro q hq
        dsimp only at hq
        rcases mem_dictUpd hq with ⟨q1, hq1, _, hv1⟩
        rcases mem_dictUpd hq1 with ⟨q0, hq0, _, hv0⟩
        have hc := hi.2 q0 hq0
        have hc1 : ListsCond K q1.2 := by
          rcases hv0 with hv0 | hv0
          · exact hv0 ▸ hc
          · exact hv0 ▸ ListsCond_addUsedBy hc hs
        rcases hv1 with hv1 | hv1
        · exact hv1 ▸ hc1
        · exact hv1 ▸ ListsCond_addUses hc1 ht
    case isFalse => cases h
  case isFalse =>
    cases h; exact hi

theorem check_reference_inv {K : List String} {st : App.XState} {ts c : String}
    {cd : App.ClassData} {st' : App.XState} (hi : StInv K st) (hc : c ∈ K)
    (h : App.check_reference st ts c cd = some st') : StInv K st' := by
  unfold App.check_reference at h
  cases hb : App.base_type ts with
  | none => simp only [hb] at h; exact Option.noConfusion h
  | some bt =>
    simp only [hb] at h
    cases hr : App.resolve_class st.api st.lookup bt cd with
    | none => simp only [hr] at h; cases h; exact hi
    | some tf =>
      simp only [hr] at h
      split at h
      · exact add_usage_inv hi hc h
      · cases h; exact hi

theorem scopeStep_inv {K : List String} {st : App.XState} {k : String} {st' : App.XState}
    (hi : StInv K st) (hk : k ∈ K) (h : App.scopeStep st k = some st') : StInv K st' := by
  unfold App.scopeStep at h
  cases hg : dictGet st.api k with
  | none => simp only [hg] at h; cases h; exact hi
  | some cd =>
    simp only [hg] at h
    simp only [Option.bind_eq_some] at h
    rcases h with ⟨st1, h1, st2, h2, h3⟩
    have hi1 : StInv K st1 := by
      cases he : cd.extendsName with
      | none => simp only [he] at h1; cases h1; exact hi
      | some parent =>
        simp only [he] at h1
        split at h1
        · cases hr : App.resolve_class st.api st.lookup parent cd with
          | none => simp only [hr] at h1; cases h1; exact hi
          | some pf => simp only [hr] at h1; exact add_usage_inv hi hk h1
        · cases h1; exact hi
    have hi2 : StInv K st2 := by
      refine foldlM_option_inv (Q := fun _ => True)
        (fun s m s' hP _ hf => ?_) cd.methods st1 st2 (fun _ _ => trivial) hi1 h2
      simp only [Option.bind_eq_some] at hf
      rcases hf with ⟨s1, hf1, hf2⟩
      have hs1 := check_reference_inv hP hk hf1
      exact foldlM_option_inv (Q := fun _ => True)
        (fun u p u' hP' _ hfp => check_reference_inv hP' hk hfp)
        m.parameters s1 s' (fun _ _ => trivial) hs1 hf2
    refine foldlM_option_inv (Q := fun _ => True)
      (fun s cc s' hP _ hf => ?_) cd.constructors st2 st' (fun _ _ => trivial) hi2 h3
    exact foldlM_option_inv (Q := fun _ => True)
      (fun u p u' hP' _ hfp => check_reference_inv hP' hk hfp)
      cc.parameters s s' (fun _ _ => trivial) hP hf

theorem analyze_scope_inv {st st' : App.XState}
    (hi : StInv (dictKeys st.api) st) (h : App.analyze_scope st = some st') :
    StInv (dictKeys st.api) st' := by
  unfold App.analyze_scope at h
  exact foldlM_option_inv (Q := fun k => k ∈ dictKeys st.api)
    (fun s a s' hP hQ hf => scopeStep_inv hP hQ hf)
    (dictKeys st.api) st st' (fun a ha => ha) hi h

theorem extract_all_inv {files : List (String × String)} {st' : App.XState}
    (h : App.extract_all files = some st') :
    StInv (dictKeys (App.pass1 files).api) st' := by
  unfold App.extract_all at h
  have h0 : StInv (dictKeys (App.pass1 files).api) (App.pass1 files) := by
    refine ⟨rfl, ?_⟩
    intro q hq
    rcases pass1_lists files q hq with ⟨h1, h2⟩
    exact ⟨by rw [h1]; simp, by rw [h2]; simp, by rw [h1]; simp, by rw [h2]; simp⟩
  exact analyze_scope_inv h0 h

theorem dictGet_cons {α : Type} (p : String × α) (d : List (String × α)) (k : String) :
    dictGet (p :: d) k = if p.1 = k then some p.2 else dictGet d k := by
  by_cases h : p.1 = k
  · rw [if_pos h]
    unfold dictGet
    rw [List.find?_cons_of_pos _ (by simp [h])]
    rfl
  · rw [if_neg h]
    unfold dictGet
    rw [List.find?_cons_of_neg _ (by simp [h])]

theorem dictGet_dictUpd {α : Type} (d : List (String × α)) (k : String) (f : α → α)
    (k' : String) :
    dictGet (dictUpd d k f) k' = if k' = k then (dictGet d k).map f else dictGet d k' := by
  induction d with
  | nil => simp [dictUpd, dictGet]
  | cons p rest ih =>
    have hupd : dictUpd (p :: rest) k f =
        (if p.1 = k then (p.1, f p.2) else p) :: dictUpd rest k f := rfl
    by_cases hp : p.1 = k <;> by_cases hq : p.1 = k' <;> by_cases hk : k' = k <;>
      simp [hupd, dictGet_cons, hp, hq, hk, ih] <;> simp_all

theorem importScan_sound {api : List (String × App.ClassData)} {sn : String} :
    ∀ {imps : List String} {r : String}, App.importScan api sn imps = some r →
      (r ∈ imps ∧ PyStr.strEndsWith r ("." ++ sn) = true) ∨ r ∈ dictKeys api := by
  intro imps
  induction imps with
  | nil => intro r h; cases h
  | cons imp rest ih =>
    intro r h
    unfold App.importScan at h
    split at h
    case isTrue ht => cases h; exact Or.inl ⟨List.mem_cons_self _ _, ht⟩
    case isFalse =>
      split at h
      · split at h
        case isTrue hc => cases h; exact Or.inr ((dictMem_eq_true_iff _ _).mp hc)
        case isFalse =>
          rcases ih h with ⟨h1, h2⟩ | h1
          exacts [Or.inl ⟨List.mem_cons_of_mem _ h1, h2⟩, Or.inr h1]
      · rcases ih h with ⟨h1, h2⟩ | h1
        exacts [Or.inl ⟨List.mem_cons_of_mem _ h1, h2⟩, Or.inr h1]

theorem add_usage_no_new_self {st : App.XState} {t s : String} {st' : App.XState}
    (h : App.add_usage st t s = some st') (hts : t ≠ s) :
    (s ∉ App.usesOf st s → s ∉ App.usesOf st' s) ∧
    App.usedByOf st' s = App.usedByOf st s := by
  simp only [App.add_usage] at h
  split at h
  case isTrue hm =>
    split at h
    case isTrue hm2 =>
      cases h
      have hne : ¬ (s = t) := fun hc => hts hc.symm
      constructor
      · intro hn
        unfold App.usesOf
        rw [dictGet_dictUpd, if_pos rfl, dictGet_dictUpd, if_neg hne]
        unfold App.usesOf at hn
        cases hg : dictGet st.api s with
        | none => simp
        | some cd =>
          rw [hg] at hn
          simp only [Option.map_some']
          split
          · exact hn
          · intro hmem
            rcases List.mem_append.mp hmem with hmem | hmem
            · exact hn hmem
            · simp at hmem; exact hts hmem.symm
      · unfold App.usedByOf
        rw [dictGet_dictUpd, if_pos rfl, dictGet_dictUpd, if_neg hne]
        cases hg : dictGet st.api s with
        | none => simp
        | some cd =>
          simp only [Option.map_some']
          split <;> rfl
    case isFalse => cases h
  case isFalse =>
    cases h; exact ⟨fun hn => hn, rfl⟩

/-- Claim C1 (amended): in every completed run, each fully-qualified name in
any uses or usedBy list is a key of the assembled model; the key set is
exactly the pass-1 key set, so unresolved references never create placeholder
nodes and produce no edge (a failed resolution leaves the state unchanged).
The claim's no-error part had to be dropped: a referenced type string with no
identifier token (such as <>) crashes pass 2 with an IndexError, so that run
produces no model at all (see the counterexample). -/
theorem C1_usage_endpoints_are_model_keys :
    (∀ (files : List (String × String)) (st' : App.XState),
      App.extract_all files = some st' →
      dictKeys st'.api = dictKeys (App.pass1 files).api ∧
      ∀ k cd, dictGet st'.api k = some cd →
        (∀ x ∈ cd.uses, x ∈ dictKeys st'.api) ∧
        (∀ x ∈ cd.usedBy, x ∈ dictKeys st'.api)) ∧
    (∀ (st : App.XState) (ts c : String) (cd : App.ClassData) (bt : String),
      App.base_type ts = some bt →
      App.resolve_class st.api st.lookup bt cd = none →
      App.check_reference st ts c cd = some st) := by
  constructor
  · intro files st' h
    have hinv := extract_all_inv h
    refine ⟨hinv.1, ?_⟩
    intro k cd hg
    rcases hinv.2 (k, cd) (dictGet_mem hg) with ⟨h1, h2, _, _⟩
    rw [hinv.1]
    exact ⟨h1, h2⟩
  · intro st ts c cd bt hb hr
    unfold App.check_reference
    simp [hb, hr]

def c1wFiles : List (String × String) := [("W.java", "package w;\nclass W \x7b\n\x7d\n")]

def c1wCd : App.ClassData := ⟨"w", "W", "W.java", 2, none, [], [], [], [], [], []⟩

theorem C1_usage_endpoints_are_model_keys_witness :
    (App.extract_all c1wFiles = some (App.pass1 c1wFiles)) ∧
    (dictKeys (App.pass1 c1wFiles).api = dictKeys (App.pass1 c1wFiles).api ∧
      ∀ k cd, dictGet (App.pass1 c1wFiles).api k = some cd →
        (∀ x ∈ cd.uses, x ∈ dictKeys (App.pass1 c1wFiles).api) ∧
        (∀ x ∈ cd.usedBy, x ∈ dictKeys (App.pass1 c1wFiles).api)) ∧
    (App.base_type "Foo" = some "Foo") ∧
    (App.resolve_class (App.pass1 c1wFiles).api (App.pass1 c1wFiles).lookup "Foo" c1wCd =
      none) ∧
    (App.check_reference (App.pass1 c1wFiles) "Foo" "w.W" c1wCd = some (App.pass1 c1wFiles)) :=
  ⟨by rfl,
   C1_usage_endpoints_are_model_keys.1 c1wFiles (App.pass1 c1wFiles) (by rfl),
   by rfl, by rfl,
   C1_usage_endpoints_are_model_keys.2 (App.pass1 c1wFiles) "Foo" "w.W" c1wCd "Foo"
     (by rfl) (by rfl)⟩

def c1CrashFiles : List (String × String) := [("A.java", "class A \x7b\n<> x() \x7b\n\x7d\n\x7d\n")]

/-- Claim C1 counterexample: a file whose scanner accepts a member with the
return type <> (the junk filter does not cover angle brackets). Pass 1
collects it, and pass 2 crashes in check_reference: re.sub maps <> to spaces,
split() yields no token, and [0] raises IndexError, so extract_all produces
no model — an unresolved reference that is an error, contradicting the claim
that an unresolvable referenced type name produces no error. -/
theorem C1_counterexample_crash_on_tokenless_type :
    ((App.pass1 c1CrashFiles).api.map (fun q =>
        (q.1, q.2.methods.map (fun m => m.returnType)))) = [("default.A", ["<>"])] ∧
    App.extract_all c1CrashFiles = none := by
  exact ⟨by rfl, by rfl⟩

/-- Claim C2 (amended): edges are deduplicated — in every completed run each
ordered (source, target) pair appears at most once in the target's usedBy
list and at most once in the source's uses list — and the return/parameter
type path (check_reference) never records a self edge. The claim's inclusion
of the supertype path had to be dropped: the extends path has no self-edge
guard, and a declaration whose captured supertype resolves to itself
produces a self edge (see the counterexample). -/
theorem C2_edges_deduplicated_and_type_refs_self_free :
    (∀ (files : List (String × String)) (st' : App.XState),
      App.extract_all files = some st' →
      ∀ k cd, dictGet st'.api k = some cd → cd.uses.Nodup ∧ cd.usedBy.Nodup) ∧
    (∀ (st : App.XState) (ts c : String) (cd : App.ClassData) (st' : App.XState),
      App.check_reference st ts c cd = some st' →
      (c ∉ App.usesOf st c → c ∉ App.usesOf st' c) ∧
      (c ∉ App.usedByOf st c → c ∉ App.usedByOf st' c)) := by
  constructor
  · intro files st' h k cd hg
    have hinv := extract_all_inv h
    rcases hinv.2 (k, cd) (dictGet_mem hg) with ⟨_, _, h3, h4⟩
    exact ⟨h3, h4⟩
  · intro st ts c cd st' h
    unfold App.check_reference at h
    cases hb : App.base_type ts with
    | none => simp only [hb] at h; exact Option.noConfusion h
    | some bt =>
      simp only [hb] at h
      cases hr : App.resolve_class st.api st.lookup bt cd with
      | none => simp only [hr] at h; cases h; exact ⟨fun hn => hn, fun hn => hn⟩
      | some tf =>
        simp only [hr] at h
        split at h
        case isTrue hne =>
          have hx := add_usage_no_new_self h hne
          exact ⟨hx.1, fun hn => hx.2 ▸ hn⟩
        case isFalse => cases h; exact ⟨fun hn => hn, fun hn => hn⟩

def c2wFiles : List (String × String) := [("Q.java", "package q;\nclass Q \x7b\n\x7d\n")]

def c2wCd : App.ClassData := ⟨"q", "Q", "Q.java", 2, none, [], [], [], [], [], []⟩

theorem C2_edges_deduplicated_and_type_refs_self_free_witness :
    (App.extract_all c2wFiles = some (App.pass1 c2wFiles)) ∧
    (∀ k cd, dictGet (App.pass1 c2wFiles).api k = some cd →
      cd.uses.Nodup ∧ cd.usedBy.Nodup) ∧
    (App.check_reference (App.pass1 c2wFiles) "Nope" "q.Q" c2wCd =
      some (App.pass1 c2wFiles)) ∧
    ("q.Q" ∉ App.usesOf (App.pass1 c2wFiles) "q.Q" →
      "q.Q" ∉ App.usesOf (App.pass1 c2wFiles) "q.Q") :=
  ⟨by rfl,
   C2_edges_deduplicated_and_type_refs_self_free.1 c2wFiles (App.pass1 c2wFiles) (by rfl),
   by rfl,
   (C2_edges_deduplicated_and_type_refs_self_free.2 (App.pass1 c2wFiles) "Nope" "q.Q"
     c2wCd (App.pass1 c2wFiles) (by rfl)).1⟩

def c2Files : List (String × String) := [("A.java", "package p;\nclass A extends A \x7b\n\x7d\n")]

/-- Claim C2 counterexample: the supertype path records a self edge. On the
input file class A extends A, the resolver resolves the captured supertype A
to p.A itself and add_usage is called with target = source = p.A, so p.A
appears in its own uses and usedBy lists. -/
theorem C2_counterexample_extends_self_edge :
    (App.extract_all c2Files).map (fun st => (App.usesOf st "p.A", App.usedByOf st "p.A")) =
      some (["p.A"], ["p.A"]) := by rfl

/-- Claim C3 (amended): resolution tries the same-package candidate (verified
against the model), then each import — an exact match is returned without
verifying presence in the model, so an absent exact-import target shadows the
later rules and the dangling name is then silently dropped at edge creation —
then a wildcard match verified against the model, then the global simple-name
lookup whose values are collected keys. Hence every resolved name is either a
key of the model or an exact-import name taken on faith. The concrete import
scenario of the claim does hold: with pkg.A importing pkg2.B, a method
returning B, and pkg2.B defined, pkg.A lands in pkg2.B's usedBy set. -/
theorem C3_resolution_order_and_import_scenario :
    (∀ (api : List (String × App.ClassData)) (lookup : List (String × String))
      (sn : String) (ctx : App.ClassData) (fqn : String),
      (∀ q ∈ lookup, q.2 ∈ dictKeys api) →
      App.resolve_class api lookup sn ctx = some fqn →
      fqn ∈ dictKeys api ∨
        (fqn ∈ ctx.imports ∧ PyStr.strEndsWith fqn ("." ++ sn) = true)) ∧
    ((App.extract_all
        [("A.java",
          "package pkg;\nimport pkg2.B;\nclass A \x7b\npublic B getB() \x7b\nreturn b;\n\x7d\n\x7d\n"),
         ("B.java", "package pkg2;\nclass B \x7b\n\x7d\n")]).map
      (fun st => App.usedByOf st "pkg2.B") = some ["pkg.A"]) := by
  constructor
  · intro api lookup sn ctx fqn hlw h
    unfold App.resolve_class at h
    split at h
    · exact Option.noConfusion h
    · split at h
      case isTrue hm => cases h; exact Or.inl ((dictMem_eq_true_iff _ _).mp hm)
      case isFalse =>
        cases hs : App.importScan api sn ctx.imports with
        | some r =>
          rw [hs] at h; cases h
          rcases importScan_sound hs with ⟨h1, h2⟩ | h1
          exacts [Or.inr ⟨h1, h2⟩, Or.inl h1]
        | none =>
          rw [hs] at h
          exact Or.inl (hlw (sn, fqn) (dictGet_mem h))
  · rfl

def c3wCd : App.ClassData := ⟨"p", "W", "W.java", 1, none, [], [], [], [], [], []⟩

def c3wApi : List (String × App.ClassData) := [("x.W", c3wCd)]

def c3wLookup : List (String × String) := [("W", "x.W")]

theorem C3_resolution_order_and_import_scenario_witness :
    (∀ q ∈ c3wLookup, q.2 ∈ dictKeys c3wApi) ∧
    (App.resolve_class c3wApi c3wLookup "W" c3wCd = some "x.W") ∧
    ("x.W" ∈ dictKeys c3wApi ∨
      ("x.W" ∈ c3wCd.imports ∧ PyStr.strEndsWith "x.W" ("." ++ "W") = true)) :=
  ⟨by decide, by rfl,
   C3_resolution_order_and_import_scenario.1 c3wApi c3wLookup "W" c3wCd "x.W"
     (by decide) (by rfl)⟩

def c3NegFiles : List (String × String) :=
  [("A.java",
    "package pkg;\nimport a.b.B;\nclass A \x7b\npublic B getB() \x7b\nreturn b;\n\x7d\n\x7d\n"),
   ("B.java", "package c;\nclass B \x7b\n\x7d\n")]

/-- Claim C3 counterexample: pkg.A imports a.b.B (which is not a collected
declaration) and has a method returning B, while c.B is a collected
declaration found by the global lookup. The first rule that yields a
declaration present in the model is the global fallback, so the claim
requires an edge pkg.A into c.B; the code instead returns the absent a.b.B
from the unverified exact-import rule and no edge at all is created. -/
theorem C3_counterexample_exact_import_unverified :
    ((dictGet (App.pass1 c3NegFiles).api "pkg.A").map (fun cd =>
      App.resolve_class (App.pass1 c3NegFiles).api (App.pass1 c3NegFiles).lookup "B" cd) =
      some (some "a.b.B")) ∧
    dictMem (App.pass1 c3NegFiles).api "a.b.B" = false ∧
    dictGet (App.pass1 c3NegFiles).lookup "B" = some "c.B" ∧
    dictMem (App.pass1 c3NegFiles).api "c.B" = true ∧
    (App.extract_all c3NegFiles).map (fun st => App.usedByOf st "c.B") = some [] := by
  exact ⟨by rfl, by rfl, by rfl, by rfl, by rfl⟩

/-- The signed brace count of a span: opening braces minus closing braces,
every occurrence counted, whatever region it lies in. -/
def braceSum (l : List Char) : Int :=
  (l.count '\x7b' : Int) - (l.count '\x7d' : Int)

/-- The stopping condition of the extract_body loop after consuming n+1
characters: an opening brace has been seen (or was pending) and the running
count has returned to zero. -/
def bodyStop (l : List Char) (s : Int) (f : Bool) (n : Nat) : Prop :=
  (f = true ∨ '\x7b' ∈ l.take (n + 1)) ∧ s + braceSum (l.take (n + 1)) = 0

theorem bodyStop_cons_zero (c : Char) (rest : List Char) (s : Int) (f : Bool) :
    bodyStop (c :: rest) s f 0 ↔
      ((f || c = '\x7b') = true ∧
        (if c = '\x7b' then s + 1 else if c = '\x7d' then s - 1 else s) = 0) := by
  unfold bodyStop braceSum
  by_cases hb : c = '\x7b'
  · subst hb; simp [List.count_cons]
  · by_cases hd : c = '\x7d'
    · subst hd
      simp [List.count_cons, hb, show ¬ (('\x7d' : Char) = '\x7b') from by decide]
      intro _
      omega
    · simp [List.count_cons, hb, hd, Ne.symm hb]

theorem bodyStop_cons_succ (c : Char) (rest : List Char) (s : Int) (f : Bool) (m : Nat) :
    bodyStop (c :: rest) s f (m + 1) ↔
      bodyStop rest (if c = '\x7b' then s + 1 else if c = '\x7d' then s - 1 else s)
        (f || c = '\x7b') m := by
  unfold bodyStop braceSum
  constructor
  · rintro ⟨h1, h2⟩
    simp only [List.take_succ_cons, List.count_cons, List.mem_cons] at h1 h2
    constructor
    · rcases h1 with h1 | h1 | h1
      · simp [h1]
      · simp [h1.symm]
      · exact Or.inr h1
    · by_cases hb : c = '\x7b' <;> by_cases hd : c = '\x7d' <;>
        simp [hb, hd] at h2 ⊢ <;> omega
  · rintro ⟨h1, h2⟩
    simp only [List.take_succ_cons, List.count_cons, List.mem_cons]
    constructor
    · rcases h1 with h1 | h1
      · rcases Bool.or_eq_true_iff.mp h1 with h1 | h1
        · exact Or.inl h1
        · simp at h1; exact Or.inr (Or.inl h1.symm)
      · exact Or.inr (Or.inr h1)
    · by_cases hb : c = '\x7b' <;> by_cases hd : c = '\x7d' <;>
        simp [hb, hd] at h2 ⊢ <;> omega

theorem bodyLoop_characterization :
    ∀ (l : List Char) (s : Int) (f : Bool),
      (∃ n, n < l.length ∧ bodyStop l s f n ∧ (∀ m, m < n → ¬ bodyStop l s f m) ∧
        AC.bodyLoop l s f = l.take (n + 1)) ∨
      ((∀ m, m < l.length → ¬ bodyStop l s f m) ∧ AC.bodyLoop l s f = l) := by
  intro l
  induction l with
  | nil =>
    intro s f
    right
    exact ⟨fun m hm => absurd hm (by simp), rfl⟩
  | cons c rest ih =>
    intro s f
    have hloop : AC.bodyLoop (c :: rest) s f =
        c :: (if ((f || c = '\x7b') = true ∧
            (if c = '\x7b' then s + 1 else if c = '\x7d' then s - 1 else s) = 0) then []
          else AC.bodyLoop rest
            (if c = '\x7b' then s + 1 else if c = '\x7d' then s - 1 else s)
            (f || c = '\x7b')) := by
      rfl
    by_cases h0 : ((f || c = '\x7b') = true ∧
        (if c = '\x7b' then s + 1 else if c = '\x7d' then s - 1 else s) = 0)
    · left
      refine ⟨0, by simp, (bodyStop_cons_zero c rest s f).mpr h0, fun m hm => absurd hm (by simp), ?_⟩
      rw [hloop, if_pos h0]
      simp
    · rw [hloop, if_neg h0]
      rcases ih (if c = '\x7b' then s + 1 else if c = '\x7d' then s - 1 else s)
          (f || c = '\x7b') with ⟨n, hlen, hstop, hmin, heq⟩ | ⟨hall, heq⟩
      · left
        refine ⟨n + 1, by simp; omega, (bodyStop_cons_succ c rest s f n).mpr hstop, ?_, ?_⟩
        · intro m hm
          cases m with
          | zero => exact fun hc => h0 ((bodyStop_cons_zero c rest s f).mp hc)
          | succ m =>
            exact fun hc => hmin m (by omega) ((bodyStop_cons_succ c rest s f m).mp hc)
        · rw [heq]; simp
      · right
        refine ⟨?_, by rw [heq]⟩
        intro m hm
        cases m with
        | zero => exact fun hc => h0 ((bodyStop_cons_zero c rest s f).mp hc)
        | succ m =>
          exact fun hc => hall m (by simp at hm; omega) ((bodyStop_cons_succ c rest s f m).mp hc)

/-- Claim C4 (amended): extract_body counts every opening and closing brace of
the text — braces inside string literals and comments included, there being
no lexical classifier in the code — and stops at the first index at which the
cumulative count returns to zero after an opening brace was seen; the span up
to that index (or the whole remaining text when the count never returns to
zero) is then returned with the outer brace pair stripped and surrounding
whitespace trimmed when the span both starts with an opening and ends with a
closing brace. -/
theorem C4_body_extractor_counts_every_brace :
    ∀ (content : String) (start : Nat),
      (∃ n, n < (content.data.drop start).length ∧
        bodyStop (content.data.drop start) 0 false n ∧
        (∀ m, m < n → ¬ bodyStop (content.data.drop start) 0 false m) ∧
        AC.extract_body content start = AC.bodyPost ((content.data.drop start).take (n + 1))) ∨
      ((∀ m, m < (content.data.drop start).length →
          ¬ bodyStop (content.data.drop start) 0 false m) ∧
        AC.extract_body content start = AC.bodyPost (content.data.drop start)) := by
  intro content start
  rcases bodyLoop_characterization (content.data.drop start) 0 false with
    ⟨n, h1, h2, h3, h4⟩ | ⟨h1, h2⟩
  · exact Or.inl ⟨n, h1, h2, h3, by unfold AC.extract_body; rw [h4]⟩
  · exact Or.inr ⟨h1, by unfold AC.extract_body; rw [h2]⟩

def c4Content : String := "\x7b String s = \"\x7d\"; x(); \x7d"

/-- Claim C4 counterexample: on a body whose string literal contains a closing
brace, extract_body (which counts every brace) stops inside the literal and
returns a truncated body, while the classifier-aware extraction the claim
describes (spec sections 4.1 and 4.3, modelled in SpecModel) returns the full
enclosed content: the two disagree, so braces inside string literals do
affect the depth. -/
theorem C4_counterexample_string_brace_counted :
    AC.extract_body c4Content 0 = "String s = \"" ∧
    SpecModel.spec_extract_body c4Content 0 = "String s = \"\x7d\"; x();" ∧
    AC.extract_body c4Content 0 ≠ SpecModel.spec_extract_body c4Content 0 := by
  exact ⟨by rfl, by rfl, by decide⟩

/-- Claim C5 (amended): the shared Signature Scanner of extract_api.py and
extract_app_docs.py rejects every line-anchored match whose captured name is
a control keyword (if/else/for/while/switch/case/try/catch/finally/do) or
equals the owning class name, or whose captured return type is empty, is a
visibility keyword, equals the member name, or contains any of the five junk
characters. The extended variant (analyze_code.py) rejects only the names
if/for/while/switch/catch and performs none of the return-type checks, so a
match named finally there is emitted as a member (see the counterexample). -/
theorem C5_basic_scanner_rejects_junk :
    ∀ (content className : String), ∀ m ∈ App.extract_methods content className,
      m.name ∉ App.controlKeywords ∧ m.name ≠ className ∧
      m.returnType ≠ "" ∧ m.returnType ∉ ["public", "private", "protected"] ∧
      m.returnType ≠ m.name ∧
      ∀ c ∈ ['*', '/', '\x7b', '\x7d', ';'], m.returnType.data.contains c = false := by
  intro content className m hm
  rcases List.mem_filterMap.mp hm with ⟨mt, _, hf⟩
  simp only [App.methodOfMatch] at hf
  split at hf
  case isTrue => exact Option.noConfusion hf
  case isFalse hkw =>
    split at hf
    case isTrue => exact Option.noConfusion hf
    case isFalse hcn =>
      split at hf
      case isTrue => exact Option.noConfusion hf
      case isFalse hrt =>
        split at hf
        case isTrue => exact Option.noConfusion hf
        case isFalse hrn =>
          split at hf
          case isTrue => exact Option.noConfusion hf
          case isFalse hjunk =>
            cases hf
            push_neg at hrt
            refine ⟨hkw, hcn, hrt.1, hrt.2, hrn, ?_⟩
            intro c hc
            simp only [List.any_eq_true, not_exists, not_and] at hjunk
            have := hjunk c hc
            simp only [Bool.not_eq_true] at this
            exact this

def c5wContent : String := "int go() \x7b\n\x7d\n"

def c5wMember : App.Method :=
  ⟨"go", 1, "package-private", "", "int", [], "package-private int go()", "", ""⟩

theorem C5_basic_scanner_rejects_junk_witness :
    c5wMember ∈ App.extract_methods c5wContent "C" ∧
    (c5wMember.name ∉ App.controlKeywords ∧ c5wMember.name ≠ "C" ∧
      c5wMember.returnType ≠ "" ∧
      c5wMember.returnType ∉ ["public", "private", "protected"] ∧
      c5wMember.returnType ≠ c5wMember.name ∧
      ∀ c ∈ ['*', '/', '\x7b', '\x7d', ';'], c5wMember.returnType.data.contains c = false) :=
  ⟨by decide, C5_basic_scanner_rejects_junk c5wContent "C" c5wMember (by decide)⟩

def idEnum : AC.Enum := fun l => l

def c5AcContent : String := "class C \x7b\nint finally(int x) \x7b return x; \x7d\n\x7d\n"

/-- Claim C5 counterexample: the Signature Scanner of the extended variant
(analyze_code.py extract_methods) does not reject the control keyword
finally: on this input it emits a member named finally. -/
theorem C5_counterexample_extended_variant_keeps_finally :
    (AC.extract_methods idEnum c5AcContent "C").map (fun m => (m.name, m.returnType)) =
      [("finally", "int")] := by rfl

/-! Connection-order scrubbing for the determinism claim. -/

def scrubM (m : AC.ACMethod) : AC.ACMethod := { m with connections := [] }

def scrubC (c : AC.ACClass) : AC.ACClass := { c with methods := c.methods.map scrubM }

def scrubRun (d : List (String × AC.ACClass)) : List (String × AC.ACClass) :=
  d.map (fun p => (p.1, scrubC p.2))

theorem scrubM_methodOfMatch (e1 e2 : AC.Enum) (content cn : String) (mt : Rex.M) :
    (AC.methodOfMatch e1 content cn mt).map scrubM =
      (AC.methodOfMatch e2 content cn mt).map scrubM := by
  simp only [AC.methodOfMatch]
  split <;> rfl

theorem scrubM_ctorOfMatch (e1 e2 : AC.Enum) (content cn : String) (mt : Rex.M) :
    scrubM (AC.ctorOfMatch e1 content cn mt) = scrubM (AC.ctorOfMatch e2 content cn mt) := rfl

theorem scrub_extract_methods (e1 e2 : AC.Enum) (content cn : String) :
    (AC.extract_methods e1 content cn).map scrubM =
      (AC.extract_methods e2 content cn).map scrubM := by
  unfold AC.extract_methods
  rw [List.map_append, List.map_append]
  congr 1
  · have hfun : (fun x => (AC.methodOfMatch e1 content cn x).map scrubM) =
        (fun x => (AC.methodOfMatch e2 content cn x).map scrubM) :=
      funext (fun x => scrubM_methodOfMatch e1 e2 content cn x)
    rw [List.map_filterMap, List.map_filterMap, hfun]
  · have hfun : (scrubM ∘ AC.ctorOfMatch e1 content cn) =
        (scrubM ∘ AC.ctorOfMatch e2 content cn) :=
      funext (fun x => scrubM_ctorOfMatch e1 e2 content cn x)
    rw [List.map_map, List.map_map, hfun]

theorem scrub_parse_file (e1 e2 : AC.Enum) (p c : String) :
    (AC.parse_file e1 p c).map (fun kv => (kv.1, scrubC kv.2)) =
      (AC.parse_file e2 p c).map (fun kv => (kv.1, scrubC kv.2)) := by
  unfold AC.parse_file
  cases (Rex.reSearch Pat.acClassRe c.data).bind (fun m => Rex.groupS m 1) with
  | none => rfl
  | some cn =>
    simp only [Option.map_some']
    congr 2
    simp only [scrubC]
    congr 1
    exact scrub_extract_methods e1 e2 c cn

theorem dictMem_scrubRun (d : List (String × AC.ACClass)) (k : String) :
    dictMem (scrubRun d) k = dictMem d k := by
  induction d with
  | nil => rfl
  | cons p rest ih =>
    by_cases h : p.1 = k
    · simp [scrubRun, dictMem, List.find?_cons_of_pos, h]
    · simp only [scrubRun, List.map_cons, dictMem] at ih ⊢
      rw [List.find?_cons_of_neg _ (by simp [h]), List.find?_cons_of_neg _ (by simp [h])]
      exact ih

theorem scrubRun_dictInsert (d : List (String × AC.ACClass)) (k : String) (v : AC.ACClass) :
    scrubRun (dictInsert d k v) = dictInsert (scrubRun d) k (scrubC v) := by
  unfold dictInsert
  rw [dictMem_scrubRun]
  split
  · unfold scrubRun
    rw [List.map_map, List.map_map]
    apply List.map_congr_left
    intro p _
    by_cases h : p.1 = k <;> simp [h]
  · unfold scrubRun
    rw [List.map_append]
    rfl

/-- Claim C6 (amended): the extended analyzer is deterministic in every field
except the order of each member's connections list. Its output is a function
of the input pairs and of the set-enumeration order (Python's string-hash
seed): models produced under any two enumerations agree exactly after the
connections lists are blanked, and at the Semantic Tagger level the two
connections lists are permutations of each other whenever both enumerations
are faithful. A byte-identical round trip therefore holds per fixed hash
seed but not across seeds (see the counterexample). -/
theorem C6_deterministic_up_to_connection_order :
    (∀ (e1 e2 : AC.Enum) (files : List (String × String)),
      scrubRun (AC.run e1 files) = scrubRun (AC.run e2 files)) ∧
    (∀ (e1 e2 : AC.Enum), AC.ValidEnum e1 → AC.ValidEnum e2 →
      ∀ (n b p rt : String),
        ((AC.infer_method_logic e1 n b p rt).connections).Perm
          ((AC.infer_method_logic e2 n b p rt).connections)) := by
  constructor
  · intro e1 e2 files
    have gen : ∀ (fs : List (String × String)) (st1 st2 : List (String × AC.ACClass)),
        scrubRun st1 = scrubRun st2 →
        scrubRun (fs.foldl (fun st f =>
          match AC.parse_file e1 f.1 f.2 with
          | none => st
          | some kv => dictInsert st kv.1 kv.2) st1) =
        scrubRun (fs.foldl (fun st f =>
          match AC.parse_file e2 f.1 f.2 with
          | none => st
          | some kv => dictInsert st kv.1 kv.2) st2) := by
      intro fs
      induction fs with
      | nil => intro st1 st2 h; simpa using h
      | cons f fs ih =>
        intro st1 st2 h
        simp only [List.foldl_cons]
        apply ih
        have hp := scrub_parse_file e1 e2 f.1 f.2
        cases h1 : AC.parse_file e1 f.1 f.2 with
        | none =>
          rw [h1] at hp
          cases h2 : AC.parse_file e2 f.1 f.2 with
          | none => exact h
          | some kv2 => rw [h2] at hp; exact Option.noConfusion hp
        | some kv1 =>
          rw [h1] at hp
          cases h2 : AC.parse_file e2 f.1 f.2 with
          | none => rw [h2] at hp; exact Option.noConfusion hp
          | some kv2 =>
            rw [h2] at hp
            simp only [Option.map_some', Option.some.injEq, Prod.mk.injEq] at hp
            obtain ⟨hk, hv⟩ := hp
            rw [scrubRun_dictInsert, scrubRun_dictInsert, h, hk, hv]
    exact gen files [] [] rfl
  · intro e1 e2 h1 h2 n b p rt
    unfold AC.infer_method_logic AC.connList
    simp only
    set F := (Rex.reFindAll1 Pat.capWordRe b.data).map String.mk with hF
    set ruleConns := (if PyStr.strContains b "commandManager.execute" ||
        PyStr.strContains b "cmdMgr.execute" then ["CommandManager"] else []) with hR
    set pr := (fun cls => decide (cls ∉ ["String", "Math", "System", "List", "ArrayList",
      "Float", "Integer", "Object", "Exception", "Override", "Deprecated"] ∧ cls ≠ n)) with hpr
    have base : ∀ e : AC.Enum, AC.ValidEnum e →
        (AC.pySetList e (ruleConns ++ (AC.pySetList e F).filter pr)).Perm
          ((ruleConns ++ F.dedup.filter pr).dedup) := by
      intro e he
      have s1 : (AC.pySetList e F).Perm F.dedup := he F.dedup
      have s2 : ((AC.pySetList e F).filter pr).Perm (F.dedup.filter pr) := s1.filter pr
      have s3 : (ruleConns ++ (AC.pySetList e F).filter pr).Perm
          (ruleConns ++ F.dedup.filter pr) := s2.append_left ruleConns
      have s4 := s3.dedup
      exact (he (ruleConns ++ (AC.pySetList e F).filter pr).dedup).trans s4
    exact (base e1 h1).trans (base e2 h2).symm

def rotEnum : AC.Enum := fun l => l.rotate 1

def c6Files : List (String × String) :=
  [("A.java", "class A \x7b\nvoid go() \x7b Zoo z; Apple a; Mango m; \x7d\n\x7d\n")]

/-- Claim C6 counterexample: two faithful set enumerations (identity and
rotation by one, both permutations of the set elements, as different string
hash seeds produce) give byte-different models on the same unmodified input:
the single method's connections list comes out in two different orders. -/
theorem C6_counterexample_set_order_changes_output :
    AC.ValidEnum idEnum ∧ AC.ValidEnum rotEnum ∧
    ((AC.run idEnum c6Files).map (fun p => p.2.methods.map (fun m => m.connections)) =
      [[["Zoo", "Apple", "Mango"]]]) ∧
    ((AC.run rotEnum c6Files).map (fun p => p.2.methods.map (fun m => m.connections)) =
      [[["Mango", "Zoo", "Apple"]]]) ∧
    AC.run idEnum c6Files ≠ AC.run rotEnum c6Files := by
  exact ⟨fun l => List.Perm.refl l, fun l => l.rotate_perm 1, by rfl, by rfl, by decide⟩

def c6wFiles : List (String × String) :=
  [("B.java", "class B \x7b\nvoid hi() \x7b Paris p; Oslo o; Quito q; \x7d\n\x7d\n")]

theorem C6_deterministic_up_to_connection_order_witness :
    AC.ValidEnum idEnum ∧ AC.ValidEnum rotEnum ∧
    scrubRun (AC.run idEnum c6wFiles) = scrubRun (AC.run rotEnum c6wFiles) ∧
    ((AC.infer_method_logic idEnum "hi" "Paris p;" "" "void").connections).Perm
      ((AC.infer_method_logic rotEnum "hi" "Paris p;" "" "void").connections) :=
  ⟨fun l => List.Perm.refl l, fun l => l.rotate_perm 1,
   C6_deterministic_up_to_connection_order.1 idEnum rotEnum c6wFiles,
   C6_deterministic_up_to_connection_order.2 idEnum rotEnum (fun l => List.Perm.refl l)
     (fun l => l.rotate_perm 1) "hi" "Paris p;" "" "void"⟩

theorem windowWalk_length_le (l : List String) : ∀ b, (App.windowWalk l b).length ≤ l.length := by
  induction l with
  | nil => intro b; simp [App.windowWalk]
  | cons x rest ih =>
    intro b
    unfold App.windowWalk
    split
    · simp
    · split
      · split
        · simp
        · simpa using Nat.succ_le_succ (ih (b + 1))
      · simpa using Nat.succ_le_succ (ih b)

theorem windowWalk_no_stop (l : List String) :
    ∀ b, ∀ x ∈ App.windowWalk l b, App.stopLineB x = false := by
  induction l with
  | nil => intro b x hx; simp [App.windowWalk] at hx
  | cons line rest ih =>
    intro b
    unfold App.windowWalk
    split
    case isTrue => intro x hx; simp at hx
    case isFalse hstop =>
      split
      · split
        · intro x hx; simp at hx
        · intro x hx
          rcases List.mem_cons.mp hx with hx | hx
          · subst hx; exact Bool.eq_false_iff.mpr hstop
          · exact ih (b + 1) x hx
      · intro x hx
        rcases List.mem_cons.mp hx with hx | hx
        · subst hx; exact Bool.eq_false_iff.mpr hstop
        · exact ih b x hx

theorem windowWalk_blank_count (l : List String) :
    ∀ b, b ≤ 2 →
      ((App.windowWalk l b).filter (fun x => PyStr.pystrip x = "")).length + b ≤ 2 := by
  induction l with
  | nil => intro b hb; simpa [App.windowWalk] using hb
  | cons line rest ih =>
    intro b hb
    unfold App.windowWalk
    split
    · simpa using hb
    · split
      case isTrue hblank =>
        split
        case isTrue => simpa using hb
        case isFalse hcnt =>
          have hb1 : b + 1 ≤ 2 := by omega
          have hih := ih (b + 1) hb1
          simp only [List.filter_cons]
          rw [if_pos (by simp [hblank])]
          simp only [List.length_cons]
          omega
      case isFalse hblank =>
        have hih := ih b hb
        simp only [List.filter_cons]
        rw [if_neg (by simp [hblank])]
        exact hih

def c7OneBlank : String := "class C \x7b\n/**\n * Doc2\n */\n\npublic void foo() \x7b\n\x7d\n\x7d\n"

def c7Interior : String :=
  "class C \x7b\n/**\n * D4\n */\nx()\n\ny()\n\nz()\n\npublic void foo() \x7b\n\x7d\n\x7d\n"

/-- Claim C7 (amended): the Documentation Binder's backward walk examines at
most the last 10 line fragments before the match start, never retains a line
whose stripped form ends in a closing brace or semicolon, and retains at most
2 blank lines — the count is cumulative over the window, not consecutive, so
three blanks spread through the window also stop the walk (the interior
example below is not bound). Because the signature pattern's leading
whitespace consumes every blank line directly above the signature, those
blanks lie inside the match rather than the window: a documentation block
separated by exactly 1 blank line is bound, and one separated by 3 blank
lines is bound as well (see the counterexample). -/
theorem C7_binder_window_and_blank_handling :
    (∀ (content : String) (pos : Nat),
      (App.examinedWindow content pos).length ≤ 10 ∧
      (∀ x ∈ App.examinedWindow content pos, App.stopLineB x = false) ∧
      ((App.examinedWindow content pos).filter
        (fun x => PyStr.pystrip x = "")).length ≤ 2) ∧
    ((App.extract_methods c7OneBlank "C").map (fun m => m.description) = ["Doc2"]) ∧
    ((App.extract_methods c7Interior "C").map (fun m => m.description) = [""]) := by
  refine ⟨?_, by rfl, by rfl⟩
  intro content pos
  refine ⟨?_, windowWalk_no_stop _ 0, by simpa using windowWalk_blank_count _ 0 (by omega)⟩
  calc (App.examinedWindow content pos).length
      ≤ (PyStr.lastN 10 (PyStr.pysplit '\n'
          (String.mk (content.data.take pos)))).reverse.length :=
        windowWalk_length_le _ 0
    _ ≤ 10 := by
        rw [List.length_reverse]
        unfold PyStr.lastN
        rw [List.length_drop]
        omega

def c7ThreeBlank : String := "class C \x7b\n/**\n * Doc\n */\n\n\n\npublic void foo() \x7b\n\x7d\n\x7d\n"

/-- Claim C7 counterexample: a documentation block separated from its
signature by 3 blank lines IS bound to it. The signature regex begins with
line-anchored optional whitespace, so the match starts at the first blank
line and all three blanks are consumed by the match itself; the backward walk
then starts right below the block and binds it. The claim requires this
description to be empty. -/
theorem C7_counterexample_three_blank_lines_bound :
    (App.extract_methods c7ThreeBlank "C").map (fun m => (m.name, m.description)) =
      [("foo", "Doc")] := by rfl

theorem strStartsWith_head {n p : String} {c : Char} {cs : List Char}
    (hp : p.data = c :: cs) (h : PyStr.strStartsWith n p = true) :
    ∃ rest, n.data = c :: rest := by
  unfold PyStr.strStartsWith at h
  rw [hp] at h
  cases hn : n.data with
  | nil => rw [hn] at h; simp [List.isPrefixOf] at h
  | cons d rest =>
    rw [hn] at h
    simp only [List.isPrefixOf] at h
    rcases Bool.and_eq_true_iff.mp h with ⟨h1, _⟩
    simp at h1
    exact ⟨rest, by rw [h1]⟩

theorem startsWith_set_not_get {n : String} (h : PyStr.strStartsWith n "set" = true) :
    PyStr.strStartsWith n "get" = false := by
  rcases strStartsWith_head (p := "set") rfl h with ⟨rest, hr⟩
  by_contra hg
  simp only [Bool.not_eq_false] at hg
  rcases strStartsWith_head (p := "get") rfl hg with ⟨rest2, hr2⟩
  rw [hr] at hr2
  injection hr2 with h1 _
  exact absurd h1 (by decide)

theorem startsWith_is_not_get {n : String} (h : PyStr.strStartsWith n "is" = true) :
    PyStr.strStartsWith n "get" = false := by
  rcases strStartsWith_head (p := "is") rfl h with ⟨rest, hr⟩
  by_contra hg
  simp only [Bool.not_eq_false] at hg
  rcases strStartsWith_head (p := "get") rfl hg with ⟨rest2, hr2⟩
  rw [hr] at hr2
  injection hr2 with h1 _
  exact absurd h1 (by decide)

theorem startsWith_is_not_set {n : String} (h : PyStr.strStartsWith n "is" = true) :
    PyStr.strStartsWith n "set" = false := by
  rcases strStartsWith_head (p := "is") rfl h with ⟨rest, hr⟩
  by_contra hg
  simp only [Bool.not_eq_false] at hg
  rcases strStartsWith_head (p := "set") rfl hg with ⟨rest2, hr2⟩
  rw [hr] at hr2
  injection hr2 with h1 _
  exact absurd h1 (by decide)

theorem infer_description_of_no_rules {e : AC.Enum} {n b p rt : String}
    (hd : AC.ruleDescs n b rt = []) :
    (AC.infer_method_logic e n b p rt).description = AC.fallbackDesc n := by
  unfold AC.infer_method_logic
  simp only [hd, List.isEmpty_nil, if_pos]
  rfl

theorem fallbackDesc_ne_empty (n : String) : AC.fallbackDesc n ≠ "" := by
  unfold AC.fallbackDesc
  split
  · intro hc
    have hlen := congrArg String.length hc
    rw [String.length_append, String.length_append] at hlen
    have h1 : "Retrieves ".length = 10 := rfl
    have h2 : ".".length = 1 := rfl
    have h3 : "".length = 0 := rfl
    omega
  · split
    · intro hc
      have hlen := congrArg String.length hc
      rw [String.length_append, String.length_append] at hlen
      have h1 : "Sets ".length = 5 := rfl
      have h2 : ".".length = 1 := rfl
      have h3 : "".length = 0 := rfl
      omega
    · split
      · intro hc
        have hlen := congrArg String.length hc
        rw [String.length_append, String.length_append] at hlen
        have h1 : "Checks if ".length = 10 := rfl
        have h2 : ".".length = 1 := rfl
        have h3 : "".length = 0 := rfl
        omega
      · decide

theorem ruleDescs_mem_ne_empty {n b rt x : String} (hx : x ∈ AC.ruleDescs n b rt) :
    x ≠ "" := by
  unfold AC.ruleDescs at hx
  simp only [List.mem_append] at hx
  rcases hx with ((((((hx | hx) | hx) | hx) | hx) | hx) | hx) <;>
    [skip; skip; skip;
     (split at hx
      · split at hx <;> (simp at hx; subst hx; decide)
      · simp at hx);
     skip; skip; skip] <;>
    first
    | (split at hx
       · simp at hx; subst hx; decide
       · simp at hx)
    | skip

theorem pyJoin_space_ne_empty {x : String} (hx : x ≠ "") :
    ∀ xs, PyStr.pyJoin " " (x :: xs) ≠ "" := by
  intro xs
  cases xs with
  | nil => simpa [PyStr.pyJoin] using hx
  | cons y rest =>
    unfold PyStr.pyJoin
    intro hc
    have hlen := congrArg String.length hc
    rw [String.length_append, String.length_append] at hlen
    have h2 : " ".length = 1 := rfl
    have h3 : "".length = 0 := rfl
    omega

theorem infer_description_ne_empty (e : AC.Enum) (n b p rt : String) :
    (AC.infer_method_logic e n b p rt).description ≠ "" := by
  cases hd : AC.ruleDescs n b rt with
  | nil =>
    rw [infer_description_of_no_rules hd]
    exact fallbackDesc_ne_empty n
  | cons x xs =>
    have hdesc : (AC.infer_method_logic e n b p rt).description =
        PyStr.pyJoin " " (x :: xs) := by
      unfold AC.infer_method_logic
      simp [hd]
    rw [hdesc]
    exact pyJoin_space_ne_empty (ruleDescs_mem_ne_empty (hd ▸ List.mem_cons_self x xs)) xs

/-- Claim C8 (confirmed): when no semantic rule fires, the Semantic Tagger of
analyze_code.py falls back to the name-prefix heuristic — getName with a
non-void return type receives exactly "Retrieves Name.", a set-prefixed name
"Sets X.", an is-prefixed name "Checks if X.", and any other name "Executes
custom logic." — and for every input the produced description is non-empty,
so the tagger never fails. -/
theorem C8_fallback_descriptions :
    (∀ (e : AC.Enum) (body params rt : String),
      AC.ruleDescs "getName" body rt = [] → rt ≠ "void" →
      (AC.infer_method_logic e "getName" body params rt).description = "Retrieves Name.") ∧
    (∀ (e : AC.Enum) (n body params rt : String),
      AC.ruleDescs n body rt = [] → PyStr.strStartsWith n "set" = true →
      (AC.infer_method_logic e n body params rt).description =
        "Sets " ++ String.mk (n.data.drop 3) ++ ".") ∧
    (∀ (e : AC.Enum) (n body params rt : String),
      AC.ruleDescs n body rt = [] → PyStr.strStartsWith n "is" = true →
      (AC.infer_method_logic e n body params rt).description =
        "Checks if " ++ String.mk (n.data.drop 2) ++ ".") ∧
    (∀ (e : AC.Enum) (n body params rt : String),
      AC.ruleDescs n body rt = [] →
      PyStr.strStartsWith n "get" = false → PyStr.strStartsWith n "set" = false →
      PyStr.strStartsWith n "is" = false →
      (AC.infer_method_logic e n body params rt).description = "Executes custom logic.") ∧
    (∀ (e : AC.Enum) (n body params rt : String),
      (AC.infer_method_logic e n body params rt).description ≠ "") := by
  refine ⟨?_, ?_, ?_, ?_, infer_description_ne_empty⟩
  · intro e body params rt hd _
    rw [infer_description_of_no_rules hd]
    rfl
  · intro e n body params rt hd hset
    rw [infer_description_of_no_rules hd]
    unfold AC.fallbackDesc
    rw [if_neg (by simp [startsWith_set_not_get hset]), if_pos hset]
  · intro e n body params rt hd his
    rw [infer_description_of_no_rules hd]
    unfold AC.fallbackDesc
    rw [if_neg (by simp [startsWith_is_not_get his]),
      if_neg (by simp [startsWith_is_not_set his]), if_pos his]
  · intro e n body params rt hd hg hs hi
    rw [infer_description_of_no_rules hd]
    unfold AC.fallbackDesc
    rw [if_neg (by simp [hg]), if_neg (by simp [hs]), if_neg (by simp [hi])]

theorem C8_fallback_descriptions_witness :
    (AC.ruleDescs "getName" "" "int" = [] ∧ "int" ≠ "void" ∧
      (AC.infer_method_logic idEnum "getName" "" "" "int").description = "Retrieves Name.") ∧
    (AC.ruleDescs "setX" "" "void" = [] ∧ PyStr.strStartsWith "setX" "set" = true ∧
      (AC.infer_method_logic idEnum "setX" "" "" "void").description =
        "Sets " ++ String.mk (("setX").data.drop 3) ++ ".") :=
  ⟨⟨by rfl, by decide,
    C8_fallback_descriptions.1 idEnum "" "" "int" (by rfl) (by decide)⟩,
   ⟨by rfl, by decide,
    C8_fallback_descriptions.2.1 idEnum "setX" "" "" "void" (by rfl) (by decide)⟩⟩

/-- Claim C9 (amended): every member the extended variant emits carries a
body excerpt derived from an extract_body call on the content: entries of the
method pass are capped at 200 characters with the truncation marker appended
exactly when the body exceeds 200 characters, while entries of the separate
constructor pass are capped at 200 characters with NO truncation marker
(body[:200]), so an over-long constructor body is silently cut (see the
counterexample). -/
theorem C9_snippet_cap_marker_methods_only (e : AC.Enum) (content className : String) :
    ∀ m ∈ AC.extract_methods e content className,
      (∃ i, m.codeSnippet = (if 200 < PyStr.strLen (AC.extract_body content i)
          then PyStr.strTake (AC.extract_body content i) 200 ++ "..."
          else AC.extract_body content i)) ∨
      (m.returnType = "constructor" ∧ m.codeSnippet.data.length ≤ 200 ∧
        ∃ i, m.codeSnippet = PyStr.strTake (AC.extract_body content i) 200) := by
  intro m hm
  unfold AC.extract_methods at hm
  rcases List.mem_append.mp hm with hm | hm
  · left
    rcases List.mem_filterMap.mp hm with ⟨mt, _, hf⟩
    simp only [AC.methodOfMatch] at hf
    split at hf
    · exact Option.noConfusion hf
    · cases hf
      exact ⟨mt.e - 1, rfl⟩
  · right
    rcases List.mem_map.mp hm with ⟨mt, _, he⟩
    subst he
    refine ⟨rfl, ?_, mt.e - 1, rfl⟩
    show ((AC.extract_body content (mt.e - 1)).data.take 200).length ≤ 200
    rw [List.length_take]
    omega

def c9wContent : String := "void hop() \x7b\x7d\n"

def c9wMember : AC.ACMethod :=
  ⟨"hop", "package-private", "void", "", "Executes custom logic.", [], ""⟩

theorem C9_snippet_cap_marker_methods_only_witness :
    c9wMember ∈ AC.extract_methods idEnum c9wContent "Hop" ∧
    ((∃ i, c9wMember.codeSnippet =
        (if 200 < PyStr.strLen (AC.extract_body c9wContent i)
          then PyStr.strTake (AC.extract_body c9wContent i) 200 ++ "..."
          else AC.extract_body c9wContent i)) ∨
      (c9wMember.returnType = "constructor" ∧ c9wMember.codeSnippet.data.length ≤ 200 ∧
        ∃ i, c9wMember.codeSnippet = PyStr.strTake (AC.extract_body c9wContent i) 200)) :=
  ⟨by decide,
   C9_snippet_cap_marker_methods_only idEnum c9wContent "Hop" c9wMember (by decide)⟩

def c9Body : String := String.mk (List.replicate 210 'a')

def c9Content : String := "class Foo \x7b\npublic Foo(int x) \x7b" ++ c9Body ++ "\x7d\n\x7d\n"

/-- Claim C9 counterexample: a constructor whose body has 210 characters. The
method pass (which also matches the line, capturing public as a return type)
appends the marker, but the constructor-pass entry is body[:200] with no
marker: its excerpt has exactly 200 characters and does not end in the
truncation marker, although the body exceeds 200 characters. -/
theorem C9_counterexample_ctor_excerpt_has_no_marker :
    (AC.extract_methods idEnum c9Content "Foo").map (fun m => (m.returnType, m.codeSnippet)) =
      [("public", PyStr.strTake c9Body 200 ++ "..."), ("constructor", PyStr.strTake c9Body 200)] ∧
    200 < PyStr.strLen c9Body ∧
    PyStr.strEndsWith (PyStr.strTake c9Body 200) "..." = false := by
  exact ⟨by rfl, by decide, by decide⟩

/-- The bracket depth of a span: opening < [ count as +1, closing > ] as -1,
exactly the counter of split_parameters. -/
def bracketDepth : List Char → Int
  | [] => 0
  | c :: t =>
    (if c = '<' ∨ c = '[' then (1 : Int) else if c = '>' ∨ c = ']' then -1 else 0) +
      bracketDepth t

/-- The s ends with a comma at bracket depth zero predicate of the claim. -/
def endsTopComma (s : String) : Bool :=
  match s.data.getLast? with
  | some c => decide (c = ',') && decide (bracketDepth s.data.dropLast = 0)
  | none => false

/-- The last character of l is a comma reached at running depth zero when
the scan starts at depth d. -/
def lastTop : List Char → Int → Bool
  | [], _ => false
  | [c], d => decide (c = ',') && decide (d = 0)
  | c :: c2 :: rest, d =>
    lastTop (c2 :: rest)
      (if c = '<' ∨ c = '[' then d + 1 else if c = '>' ∨ c = ']' then d - 1 else d)

theorem lastTop_cons (c : Char) (rest : List Char) (d : Int) (h : rest ≠ []) :
    lastTop (c :: rest) d =
      lastTop rest
        (if c = '<' ∨ c = '[' then d + 1 else if c = '>' ∨ c = ']' then d - 1 else d) := by
  cases rest with
  | nil => exact absurd rfl h
  | cons c2 r => rfl

theorem bracketDepth_append (a b : List Char) :
    bracketDepth (a ++ b) = bracketDepth a + bracketDepth b := by
  induction a with
  | nil => simp [bracketDepth]
  | cons c t ih =>
    simp only [List.cons_append, bracketDepth, List.append_eq]
    rw [ih]
    ring

theorem lastTop_spec : ∀ (l : List Char) (d : Int),
    lastTop l d = true ↔
      ∃ c, l.getLast? = some c ∧ c = ',' ∧ d + bracketDepth l.dropLast = 0 := by
  intro l
  induction l with
  | nil => intro d; simp [lastTop]
  | cons c rest ih =>
    intro d
    cases rest with
    | nil =>
      unfold lastTop
      constructor
      · intro h
        rcases Bool.and_eq_true_iff.mp h with ⟨h1, h2⟩
        simp at h1 h2
        exact ⟨c, rfl, h1, by simp [bracketDepth]; omega⟩
      · rintro ⟨c', hg, hc, hd⟩
        simp at hg
        subst hg
        simp [bracketDepth] at hd
        simp [hc, hd]
    | cons c2 r =>
      rw [lastTop_cons c (c2 :: r) d (by simp), ih]
      constructor
      · rintro ⟨c', hg, hc, hd⟩
        refine ⟨c', by simpa using hg, hc, ?_⟩
        rw [show (c :: c2 :: r).dropLast = c :: (c2 :: r).dropLast from rfl]
        rw [show bracketDepth (c :: (c2 :: r).dropLast) =
          (if c = '<' ∨ c = '[' then (1 : Int) else if c = '>' ∨ c = ']' then -1 else 0) +
            bracketDepth (c2 :: r).dropLast from rfl]
        by_cases h1 : c = '<' ∨ c = '['
        · rw [if_pos h1] at hd ⊢; omega
        · rw [if_neg h1] at hd ⊢
          by_cases h2 : c = '>' ∨ c = ']'
          · rw [if_pos h2] at hd ⊢; omega
          · rw [if_neg h2] at hd ⊢; omega
      · rintro ⟨c', hg, hc, hd⟩
        refine ⟨c', by simpa using hg, hc, ?_⟩
        rw [show (c :: c2 :: r).dropLast = c :: (c2 :: r).dropLast from rfl] at hd
        rw [show bracketDepth (c :: (c2 :: r).dropLast) =
          (if c = '<' ∨ c = '[' then (1 : Int) else if c = '>' ∨ c = ']' then -1 else 0) +
            bracketDepth (c2 :: r).dropLast from rfl] at hd
        by_cases h1 : c = '<' ∨ c = '['
        · rw [if_pos h1] at hd ⊢; omega
        · rw [if_neg h1] at hd ⊢
          by_cases h2 : c = '>' ∨ c = ']'
          · rw [if_pos h2] at hd ⊢; omega
          · rw [if_neg h2] at hd ⊢; omega

theorem endsTopComma_eq (s : String) : endsTopComma s = lastTop s.data 0 := by
  cases hl : lastTop s.data 0
  · cases hg : s.data.getLast? with
    | none => unfold endsTopComma; rw [hg]
    | some c =>
      unfold endsTopComma
      rw [hg]
      by_contra hb
      simp only [Bool.and_eq_true, decide_eq_true_eq, Bool.not_eq_false] at hb
      have := (lastTop_spec s.data 0).mpr ⟨c, hg, hb.1, by omega⟩
      rw [hl] at this
      exact Bool.noConfusion this
  · rcases (lastTop_spec s.data 0).mp hl with ⟨c, hg, hc, hd⟩
    unfold endsTopComma
    rw [hg]
    simp only [hc, decide_eq_true_eq, Bool.and_eq_true]
    exact ⟨trivial, by omega⟩

theorem splitParamsAux_params (l : List Char) :
    ∀ (params : List String) (cur : List Char) (d : Int),
      App.splitParamsAux l params cur d = params ++ App.splitParamsAux l [] cur d := by
  induction l with
  | nil =>
    intro params cur d
    unfold App.splitParamsAux
    split <;> simp
  | cons c rest ih =>
    intro params cur d
    unfold App.splitParamsAux
    split
    · exact ih params (c :: cur) (d + 1)
    · split
      · exact ih params (c :: cur) (d - 1)
      · split
        · simp only [List.nil_append]
          rw [ih (params ++ [String.mk cur.reverse]) [] d, ih [String.mk cur.reverse] [] d]
          simp
        · exact ih params (c :: cur) d

theorem splitParamsAux_nil (l : List Char) :
    ∀ (cur : List Char) (d : Int),
      App.splitParamsAux l [] cur d = [] → l = [] ∧ cur = [] := by
  induction l with
  | nil =>
    intro cur d h
    unfold App.splitParamsAux at h
    split at h
    case isTrue hemp => exact ⟨rfl, List.isEmpty_iff.mp hemp⟩
    case isFalse => simp at h
  | cons c rest ih =>
    intro cur d h
    unfold App.splitParamsAux at h
    split at h
    · exact absurd (ih _ _ h).2 (by simp)
    · split at h
      · exact absurd (ih _ _ h).2 (by simp)
      · split at h
        · rw [splitParamsAux_params] at h
          simp at h
        · exact absurd (ih _ _ h).2 (by simp)

theorem pyJoin_cons_ne (sep a : String) {xs : List String} (h : xs ≠ []) :
    PyStr.pyJoin sep (a :: xs) = a ++ sep ++ PyStr.pyJoin sep xs := by
  cases xs with
  | nil => exact absurd rfl h
  | cons y r => rfl

theorem mk_append (a b : List Char) : String.mk a ++ String.mk b = String.mk (a ++ b) := rfl

theorem splitParamsAux_join (l : List Char) :
    ∀ (cur : List Char) (d : Int), lastTop l d = false →
      PyStr.pyJoin "," (App.splitParamsAux l [] cur d) = String.mk (cur.reverse ++ l) := by
  induction l with
  | nil =>
    intro cur d _
    unfold App.splitParamsAux
    split
    case isTrue hemp =>
      rw [List.isEmpty_iff.mp hemp]
      rfl
    case isFalse => simp [PyStr.pyJoin]
  | cons c rest ih =>
    intro cur d hlt
    unfold App.splitParamsAux
    split
    case isTrue h1 =>
      rw [ih (c :: cur) (d + 1) ?_]
      · simp
      · cases rest with
        | nil => rfl
        | cons c2 r =>
          rw [lastTop_cons c (c2 :: r) d (by simp), if_pos h1] at hlt
          exact hlt
    case isFalse h1 =>
      split
      case isTrue h2 =>
        rw [ih (c :: cur) (d - 1) ?_]
        · simp
        · cases rest with
          | nil => rfl
          | cons c2 r =>
            rw [lastTop_cons c (c2 :: r) d (by simp), if_neg h1, if_pos h2] at hlt
            exact hlt
      case isFalse h2 =>
        split
        case isTrue h3 =>
          obtain ⟨hc, hd0⟩ := h3
          cases rest with
          | nil =>
            exfalso
            subst hc hd0
            simp [lastTop] at hlt
          | cons c2 r =>
            simp only [List.nil_append]
            rw [splitParamsAux_params (c2 :: r) [String.mk cur.reverse] [] d]
            have hR : App.splitParamsAux (c2 :: r) [] [] d ≠ [] := by
              intro hc0
              exact absurd (splitParamsAux_nil _ _ _ hc0).1 (by simp)
            rw [List.singleton_append, pyJoin_cons_ne "," _ hR]
            have hrest : lastTop (c2 :: r) d = false := by
              rw [lastTop_cons c (c2 :: r) d (by simp), if_neg h1, if_neg h2] at hlt
              exact hlt
            rw [ih [] d hrest]
            subst hc
            rw [show ("," : String) = String.mk [','] from rfl, mk_append, mk_append]
            simp
        case isFalse h3 =>
          rw [ih (c :: cur) d ?_]
          · simp
          · cases rest with
            | nil =>
              cases hlt2 : lastTop ([] : List Char) d
              · rfl
              · simp [lastTop] at hlt2
            | cons c2 r =>
              rw [lastTop_cons c (c2 :: r) d (by simp), if_neg h1, if_neg h2] at hlt
              exact hlt

theorem snoc_eq_append_cons {xs : List Char} {c : Char} {pre : List Char} {y : Char}
    {post : List Char} (h : xs ++ [c] = pre ++ y :: post) :
    (pre = xs ∧ y = c ∧ post = []) ∨
      ∃ post2, xs = pre ++ y :: post2 ∧ post = post2 ++ [c] := by
  rcases List.eq_nil_or_concat post with hp | ⟨post2, c2, hp⟩
  · subst hp
    have := List.append_inj' h rfl
    exact Or.inl ⟨this.1.symm, by simpa using this.2.symm, rfl⟩
  · subst hp
    simp only [List.concat_eq_append] at h ⊢
    rw [show pre ++ y :: (post2 ++ [c2]) = (pre ++ y :: post2) ++ [c2] by simp] at h
    have := List.append_inj' h rfl
    obtain ⟨h1, h2⟩ := this
    simp only [List.cons.injEq, and_true] at h2
    exact Or.inr ⟨post2, h1, by rw [h2]⟩

theorem bracketDepth_singleton_open {c : Char} (h : c = '<' ∨ c = '[') :
    bracketDepth [c] = 1 := by
  unfold bracketDepth bracketDepth
  rw [if_pos h]
  ring

theorem bracketDepth_singleton_close {c : Char} (h1 : ¬(c = '<' ∨ c = '['))
    (h2 : c = '>' ∨ c = ']') : bracketDepth [c] = -1 := by
  unfold bracketDepth bracketDepth
  rw [if_neg h1, if_pos h2]
  ring

theorem bracketDepth_singleton_other {c : Char} (h1 : ¬(c = '<' ∨ c = '['))
    (h2 : ¬(c = '>' ∨ c = ']')) : bracketDepth [c] = 0 := by
  unfold bracketDepth bracketDepth
  rw [if_neg h1, if_neg h2]
  ring

theorem splitParamsAux_segZ (l : List Char) :
    ∀ (cur : List Char) (d : Int),
      d = bracketDepth cur.reverse →
      (∀ pre post, cur.reverse = pre ++ ',' :: post → bracketDepth pre ≠ 0) →
      ∀ seg ∈ App.splitParamsAux l [] cur d,
        ∀ pre post, seg.data = pre ++ ',' :: post → bracketDepth pre ≠ 0 := by
  induction l with
  | nil =>
    intro cur d _ hcur seg hseg
    unfold App.splitParamsAux at hseg
    split at hseg
    · simp at hseg
    · simp only [List.nil_append, List.mem_singleton] at hseg
      subst hseg
      exact hcur
  | cons c rest ih =>
    intro cur d hd hcur seg hseg
    unfold App.splitParamsAux at hseg
    split at hseg
    case isTrue h1 =>
      refine ih (c :: cur) (d + 1) ?_ ?_ seg hseg
      · simp only [List.reverse_cons]
        rw [bracketDepth_append, bracketDepth_singleton_open h1, hd]
      · intro pre post hp
        simp only [List.reverse_cons] at hp
        rcases snoc_eq_append_cons hp with ⟨_, hy, _⟩ | ⟨post2, hx, _⟩
        · exfalso
          rcases h1 with h | h <;> simp [h] at hy
        · exact hcur pre post2 hx
    case isFalse h1 =>
      split at hseg
      case isTrue h2 =>
        refine ih (c :: cur) (d - 1) ?_ ?_ seg hseg
        · simp only [List.reverse_cons]
          rw [bracketDepth_append, bracketDepth_singleton_close h1 h2, hd]
          ring
        · intro pre post hp
          simp only [List.reverse_cons] at hp
          rcases snoc_eq_append_cons hp with ⟨_, hy, _⟩ | ⟨post2, hx, _⟩
          · exfalso
            rcases h2 with h | h <;> simp [h] at hy
          · exact hcur pre post2 hx
      case isFalse h2 =>
        split at hseg
        case isTrue h3 =>
          rw [splitParamsAux_params] at hseg
          simp only [List.nil_append, List.mem_append, List.mem_singleton] at hseg
          rcases hseg with hseg | hseg
          · subst hseg
            exact hcur
          · refine ih [] d ?_ ?_ seg hseg
            · rw [h3.2]
              rfl
            · intro pre post hp
              simp at hp
        case isFalse h3 =>
          refine ih (c :: cur) d ?_ ?_ seg hseg
          · simp only [List.reverse_cons]
            rw [bracketDepth_append, bracketDepth_singleton_other h1 h2, hd]
            ring
          · intro pre post hp
            simp only [List.reverse_cons] at hp
            rcases snoc_eq_append_cons hp with ⟨hx, hy, _⟩ | ⟨post2, hx, _⟩
            · subst hx
              intro h0
              exact h3 ⟨hy.symm, by rw [hd, h0]⟩
            · exact hcur pre post2 hx

/-- The number of commas in a span. -/
def countComma : List Char → Nat
  | [] => 0
  | c :: t => (if c = ',' then 1 else 0) + countComma t

/-- The number of commas of l that the scan of split_parameters reaches at
nonzero bracket depth when it starts at depth d: the bracket-nested commas. -/
def nestedCommas : List Char → Int → Nat
  | [], _ => 0
  | c :: t, d =>
    (if c = ',' ∧ d ≠ 0 then 1 else 0) +
      nestedCommas t
        (if c = '<' ∨ c = '[' then d + 1 else if c = '>' ∨ c = ']' then d - 1 else d)

theorem countComma_append (a b : List Char) :
    countComma (a ++ b) = countComma a + countComma b := by
  induction a with
  | nil => simp [countComma]
  | cons c t ih =>
    simp only [List.cons_append, countComma, List.append_eq, ih]
    omega

theorem countComma_reverse (l : List Char) : countComma l.reverse = countComma l := by
  induction l with
  | nil => rfl
  | cons c t ih =>
    simp only [List.reverse_cons, countComma_append, ih, countComma]
    omega

theorem splitParamsAux_comma_count (l : List Char) :
    ∀ (cur : List Char) (d : Int),
      ((App.splitParamsAux l [] cur d).map (fun seg => countComma seg.data)).sum =
        countComma cur + nestedCommas l d := by
  induction l with
  | nil =>
    intro cur d
    unfold App.splitParamsAux
    split
    case isTrue h =>
      rw [List.isEmpty_iff.mp h]
      rfl
    case isFalse h =>
      simp only [List.nil_append, List.map_cons, List.map_nil, List.sum_cons,
        List.sum_nil, nestedCommas]
      show countComma cur.reverse + 0 = countComma cur + 0
      rw [countComma_reverse]
  | cons c rest ih =>
    intro cur d
    unfold App.splitParamsAux
    split
    case isTrue h1 =>
      rw [ih (c :: cur) (d + 1)]
      have hc : ¬(c = ',' ∧ d ≠ 0) := by
        rintro ⟨hcc, _⟩
        rcases h1 with h | h <;> simp [h] at hcc
      have hcc : ¬ c = ',' := fun hx => by rcases h1 with h | h <;> simp [h] at hx
      simp only [nestedCommas, countComma, if_neg hc, if_neg hcc, if_pos h1]
      omega
    case isFalse h1 =>
      split
      case isTrue h2 =>
        rw [ih (c :: cur) (d - 1)]
        have hc : ¬(c = ',' ∧ d ≠ 0) := by
          rintro ⟨hcc, _⟩
          rcases h2 with h | h <;> simp [h] at hcc
        have hcc : ¬ c = ',' := fun hx => by rcases h2 with h | h <;> simp [h] at hx
        simp only [nestedCommas, countComma, if_neg hc, if_neg hcc, if_neg h1, if_pos h2]
        omega
      case isFalse h2 =>
        split
        case isTrue h3 =>
          rw [splitParamsAux_params]
          simp only [List.nil_append, List.map_append, List.map_cons, List.map_nil,
            List.sum_append, List.sum_cons, List.sum_nil]
          rw [ih [] d, countComma_reverse]
          have hc : ¬(c = ',' ∧ d ≠ 0) := fun hx => hx.2 h3.2
          simp only [nestedCommas, countComma, if_neg hc, if_neg h1, if_neg h2]
          rfl
        case isFalse h3 =>
          rw [ih (c :: cur) d]
          simp only [nestedCommas, countComma, if_neg h1, if_neg h2]
          by_cases hcc : c = ','
          · have hdz : d ≠ 0 := fun h0 => h3 ⟨hcc, h0⟩
            rw [if_pos hcc, if_pos ⟨hcc, hdz⟩]
            omega
          · rw [if_neg hcc, if_neg (fun hx => hcc hx.1)]
            omega

/-- C10: split_parameters loses no characters except the depth-zero commas it
splits on: for every input not ending in a comma at bracket depth zero,
joining the returned segments with a comma reconstructs the input exactly;
every comma remaining inside a returned segment sits at nonzero bracket
depth; and every bracket-nested comma of the input is kept rather than split
on — the total comma count across the returned segments equals the number of
commas the scan reaches at nonzero bracket depth, so commas nested inside
angle or square brackets never cause a split. -/
theorem C10_split_parameters_lossless :
    (∀ s : String, endsTopComma s = false →
        PyStr.pyJoin "," (App.split_parameters s) = s) ∧
    (∀ (s seg : String), seg ∈ App.split_parameters s →
        ∀ (pre post : List Char), seg.data = pre ++ ',' :: post →
          bracketDepth pre ≠ 0) ∧
    (∀ s : String,
      ((App.split_parameters s).map (fun seg => countComma seg.data)).sum =
        nestedCommas s.data 0) := by
  refine ⟨?_, ?_, ?_⟩
  · intro s hs
    rw [endsTopComma_eq] at hs
    unfold App.split_parameters
    rw [splitParamsAux_join s.data [] 0 hs]
    rfl
  · intro s seg hseg pre post hp
    refine splitParamsAux_segZ s.data [] 0 rfl ?_ seg hseg pre post hp
    intro pre2 post2 hp2
    simp at hp2
  · intro s
    unfold App.split_parameters
    rw [splitParamsAux_comma_count s.data [] 0]
    show countComma [] + nestedCommas s.data 0 = nestedCommas s.data 0
    have h0 : countComma [] = 0 := rfl
    omega

theorem C10_split_parameters_lossless_witness :
    PyStr.pyJoin "," (App.split_parameters "Map<K, V> m, int[] a") =
        "Map<K, V> m, int[] a" ∧
      bracketDepth ("Map<K".data) ≠ 0 ∧
      ((App.split_parameters "Map<K, V> m, int[] a").map
          (fun seg => countComma seg.data)).sum =
        nestedCommas ("Map<K, V> m, int[] a").data 0 :=
  ⟨C10_split_parameters_lossless.1 "Map<K, V> m, int[] a" (by decide),
   C10_split_parameters_lossless.2.1 "Map<K, V> m, int[] a" "Map<K, V> m" (by decide)
     ("Map<K".data) (" V> m".data) (by decide),
   C10_split_parameters_lossless.2.2 "Map<K, V> m, int[] a"⟩
